import Mathlib

/-!
Verification of the KVLite LSM key-value engine core against its
natural-language specification.  The Rust sources are shallowly embedded:
pure data-structure code becomes Lean functions over lists, the MVCC
transaction layer becomes an explicit state machine, and machine integers
are modelled as `Nat` (with explicit wrap-around where the Rust code can
underflow a `u64`).
-/

/-- Values (`Value = Vec<u8>` resp. `String` in the sources). -/
abbrev Value := String

/-- The reserved tombstone value `Value::default()` / `String::new()`:
an empty value denotes a delete marker. -/
def emptyValue : Value := ""

namespace SkipMap

/-- Modelled from the spec: the unique-map skip list variant
(`collections::skip_list::skipmap::SkipMap`) is not under src/ (only its
callers are).  Per spec §4.1, it is an ordered map whose `insert`
"replaces the value in-place when a node with equal key exists"; we
represent its level-0 chain as an association list sorted strictly
ascending by key. -/
def T := List (Nat × Value)

/-- Modelled from the spec: `find_first_ge` returns "the first node whose
key ≥ `key`, or null" (spec §4.1).  On the sorted level-0 chain this is
the first list entry with key ≥ the target. -/
def findFirstGe (l : List (Nat × Value)) (k : Nat) : Option (Nat × Value) :=
  l.find? (fun e => k ≤ e.1)

/-- Modelled from the spec: unique-variant `insert` places the new node
before the first node with key ≥ `key`, or replaces the value in place on
key equality (spec §4.1). -/
def insert (l : List (Nat × Value)) (k : Nat) (v : Value) : List (Nat × Value) :=
  match l with
  | [] => [(k, v)]
  | e :: t =>
    if e.1 < k then e :: insert t k v
    else if k < e.1 then (k, v) :: e :: t
    else (k, v) :: t

/-- Exact-key lookup (`get_clone` in the sources): `find_first_ge`
followed by an equality check on the found node's key, as in
`SkipMapMemTable::get`. -/
def get? (l : List (Nat × Value)) (k : Nat) : Option Value :=
  match findFirstGe l k with
  | none => none
  | some e => if e.1 = k then some e.2 else none

/-- Keys strictly ascending along the level-0 chain. -/
def Sorted (l : List (Nat × Value)) : Prop :=
  List.Pairwise (fun a b => a.1 < b.1) l

theorem sorted_nil : Sorted [] := List.Pairwise.nil

theorem mem_insert {x : Nat × Value} {l : List (Nat × Value)} {k : Nat} {v : Value}
    (h : x ∈ insert l k v) : x = (k, v) ∨ x ∈ l := by
  induction l with
  | nil => simpa [insert] using h
  | cons e t ih =>
    by_cases h1 : e.1 < k
    · rw [insert, if_pos h1, List.mem_cons] at h
      rcases h with h' | h'
      · exact Or.inr (List.mem_cons.mpr (Or.inl h'))
      · rcases ih h' with h'' | h''
        · exact Or.inl h''
        · exact Or.inr (List.mem_cons.mpr (Or.inr h''))
    · by_cases h2 : k < e.1
      · rw [insert, if_neg h1, if_pos h2, List.mem_cons] at h
        rcases h with h' | h'
        · exact Or.inl h'
        · exact Or.inr h'
      · rw [insert, if_neg h1, if_neg h2, List.mem_cons] at h
        rcases h with h' | h'
        · exact Or.inl h'
        · exact Or.inr (List.mem_cons.mpr (Or.inr h'))

theorem sorted_insert {l : List (Nat × Value)} (h : Sorted l) (k : Nat) (v : Value) :
    Sorted (insert l k v) := by
  induction l with
  | nil => simp [insert, Sorted]
  | cons e t ih =>
    rw [Sorted, List.pairwise_cons] at h
    obtain ⟨he, ht⟩ := h
    by_cases h1 : e.1 < k
    · rw [insert, if_pos h1, Sorted, List.pairwise_cons]
      refine ⟨?_, ih ht⟩
      intro x hx
      rcases mem_insert hx with h' | h'
      · rw [h']; exact h1
      · exact he x h'
    · by_cases h2 : k < e.1
      · rw [insert, if_neg h1, if_pos h2, Sorted, List.pairwise_cons]
        refine ⟨?_, List.pairwise_cons.mpr ⟨he, ht⟩⟩
        intro x hx
        rcases List.mem_cons.mp hx with h' | h'
        · rw [h']; exact h2
        · exact lt_trans h2 (he x h')
      · have hek : e.1 = k := by omega
        rw [insert, if_neg h1, if_neg h2, Sorted, List.pairwise_cons]
        refine ⟨?_, ht⟩
        intro x hx
        have := he x hx
        omega

theorem get_insert_self (l : List (Nat × Value)) (k : Nat) (v : Value) :
    get? (insert l k v) k = some v := by
  induction l with
  | nil => simp [insert, get?, findFirstGe, List.find?]
  | cons e t ih =>
    by_cases h1 : e.1 < k
    · rw [insert, if_pos h1]
      have hne : ¬ (k ≤ e.1) := by omega
      simpa [get?, findFirstGe, List.find?, hne] using ih
    · by_cases h2 : k < e.1
      · simp [insert, if_neg h1, if_pos h2, get?, findFirstGe, List.find?]
      · simp [insert, if_neg h1, if_neg h2, get?, findFirstGe, List.find?]

theorem get_insert_ne {l : List (Nat × Value)} (h : Sorted l) {k j : Nat} (v : Value)
    (hne : j ≠ k) : get? (insert l k v) j = get? l j := by
  have hne' : k ≠ j := Ne.symm hne
  induction l with
  | nil =>
    by_cases hj : j ≤ k <;>
      simp [insert, get?, findFirstGe, List.find?, hj, hne']
  | cons e t ih =>
    rw [Sorted, List.pairwise_cons] at h
    obtain ⟨he, ht⟩ := h
    by_cases h1 : e.1 < k
    · by_cases hj : j ≤ e.1
      · simp [insert, if_pos h1, get?, findFirstGe, List.find?, hj]
      · have hj' : (decide (j ≤ e.1)) = false := by simp [hj]
        rw [insert, if_pos h1]
        rw [get?, findFirstGe, List.find?, hj']
        rw [get?, findFirstGe, List.find?, hj']
        exact ih ht
    · by_cases h2 : k < e.1
      · by_cases hj : j ≤ k
        · have hjk : j < k := lt_of_le_of_ne hj hne
          have hje : j ≤ e.1 := by omega
          have hje' : ¬ e.1 = j := by omega
          simp [insert, if_neg h1, if_pos h2, get?, findFirstGe, List.find?, hj, hje,
            hne', hje']
        · have hjn : ¬ j ≤ k := hj
          simp [insert, if_neg h1, if_pos h2, get?, findFirstGe, List.find?, hjn]
      · have hek : e.1 = k := by omega
        by_cases hj : j ≤ k
        · have hjk : j < k := lt_of_le_of_ne hj hne
          have hje : j ≤ e.1 := by omega
          simp [insert, if_neg h1, if_neg h2, get?, findFirstGe, List.find?, hj, hje,
            hne', hek]
        · have hje : ¬ j ≤ e.1 := by omega
          have hjn : ¬ j ≤ k := hj
          simp [insert, if_neg h1, if_neg h2, get?, findFirstGe, List.find?, hjn, hje]

end SkipMap

/-!
The `SkipMapMemTable` (src/src/memory/skip_map_mem_table.rs): a memtable
backed by the unique skip map.  `get` runs `find_first_ge` and compares
the found node's key; `set` inserts; `remove` inserts the empty value as
a tombstone (and reports `KeyNotFound` when the key was absent, a return
value no caller of `get` consults).
-/

/-- A mutation applied to the single-writer memtable. -/
inductive MemOp where
  | set (k : Nat) (v : Value)
  | remove (k : Nat)

/-- `SkipMapMemTable::get`: `find_first_ge`, then return the node's value
exactly when its key equals the probe (src lines 15-29). -/
def memGet (m : List (Nat × Value)) (k : Nat) : Option Value :=
  match SkipMap.findFirstGe m k with
  | none => none
  | some node => if node.1 = k then some node.2 else none

/-- `SkipMapMemTable::set` (src line 31-35). -/
def memSet (m : List (Nat × Value)) (k : Nat) (v : Value) : List (Nat × Value) :=
  SkipMap.insert m k v

/-- `SkipMapMemTable::remove` (src line 37-44): inserts the empty value as
a tombstone; the `KeyNotFound` error it may additionally report does not
affect the table state. -/
def memRemove (m : List (Nat × Value)) (k : Nat) : List (Nat × Value) :=
  SkipMap.insert m k emptyValue

def applyOp (m : List (Nat × Value)) : MemOp → List (Nat × Value)
  | MemOp.set k v => memSet m k v
  | MemOp.remove k => memRemove m k

def applyOps (ops : List MemOp) (m : List (Nat × Value)) : List (Nat × Value) :=
  ops.foldl applyOp m

/-- The value written by the most recent mutation of `k` in `ops`:
the value of the last `set`, the empty tombstone value after a last
`remove`, `none` if `k` was never mutated. -/
def lastWrite : List MemOp → Nat → Option Value
  | [], _ => none
  | op :: rest, k =>
    match lastWrite rest k with
    | some v => some v
    | none =>
      match op with
      | MemOp.set k' v => if k' = k then some v else none
      | MemOp.remove k' => if k' = k then some emptyValue else none

theorem memGet_eq_get (m : List (Nat × Value)) (k : Nat) :
    memGet m k = SkipMap.get? m k := rfl

theorem sorted_applyOp {m : List (Nat × Value)} (h : SkipMap.Sorted m) (op : MemOp) :
    SkipMap.Sorted (applyOp m op) := by
  cases op <;> exact SkipMap.sorted_insert h _ _

theorem memGet_applyOps (ops : List MemOp) (m : List (Nat × Value)) (k : Nat)
    (h : SkipMap.Sorted m) :
    memGet (applyOps ops m) k = (lastWrite ops k).elim (memGet m k) some := by
  induction ops generalizing m with
  | nil => simp [applyOps, lastWrite]
  | cons op rest ih =>
    have hstep : applyOps (op :: rest) m = applyOps rest (applyOp m op) := rfl
    rw [hstep, ih (applyOp m op) (sorted_applyOp h op)]
    cases hrest : lastWrite rest k with
    | some v => simp [lastWrite, hrest]
    | none =>
      cases op with
      | set k' v =>
        by_cases hk : k' = k
        · subst hk
          simp [lastWrite, hrest, applyOp, memSet, memGet_eq_get,
            SkipMap.get_insert_self]
        · have hne : k ≠ k' := Ne.symm hk
          simp [lastWrite, hrest, applyOp, memSet, memGet_eq_get,
            SkipMap.get_insert_ne h _ hne, hk]
      | remove k' =>
        by_cases hk : k' = k
        · subst hk
          simp [lastWrite, hrest, applyOp, memRemove, memGet_eq_get,
            SkipMap.get_insert_self]
        · have hne : k ≠ k' := Ne.symm hk
          simp [lastWrite, hrest, applyOp, memRemove, memGet_eq_get,
            SkipMap.get_insert_ne h _ hne, hk]

/-- C4 counterexample: after `set 1 "a"` then `remove 1`, the memtable's
`get 1` returns `some emptyValue` — the tombstone stored verbatim — and
not `none` as the claim states. -/
theorem C4_tombstone_counterexample :
    memGet (applyOps [MemOp.set 1 "a", MemOp.remove 1] []) 1 = some emptyValue ∧
      memGet (applyOps [MemOp.set 1 "a", MemOp.remove 1] []) 1 ≠ none := by
  constructor <;> decide

/-- C4 (amended): for every sequence of `set`/`remove` operations applied
to an initially empty single-writer memtable and every key `k`, the final
`get k` returns `some` of the value of the most recent `set k v`; when the
most recent mutation of `k` was `remove k` it returns `some` of the empty
tombstone value (not `none`); and it returns `none` exactly when `k` was
never mutated. -/
theorem C4_memtable_get_semantics (ops : List MemOp) (k : Nat) :
    memGet (applyOps ops []) k = lastWrite ops k := by
  rw [memGet_applyOps ops [] k SkipMap.sorted_nil]
  cases lastWrite ops k <;> simp [memGet, SkipMap.findFirstGe]

/-!
The multi-reader single-writer skip list
(src/src/collections/skip_list/mrsw_skipmap.rs).  A node holds one entry
and a level in `[0, MAX_LEVEL]`; the map state is the level-0 forward
chain in list order, and the level-L forward chain of the pointer
structure is the subsequence of nodes whose level is at least L.  The
random level drawn by `rand_level()` is modelled as an explicit argument
of `insert`.
-/

structure MNode where
  key : Nat
  val : Value
  lvl : Nat
deriving DecidableEq

/-- The level-`L` forward chain: the nodes that carry at least `L + 1`
forward pointers, in chain order. -/
def mchain (L : Nat) (m : List MNode) : List MNode :=
  m.filter (fun n => decide (L ≤ n.lvl))

/-- `MultiSkipMap::insert` / `insert_after` (src lines 154-196): the new
node is linked immediately before the node found by `find_first_ge`, that
is before the first node whose key is ≥ the inserted key. -/
def minsert (m : List MNode) (k : Nat) (v : Value) (lvl : Nat) : List MNode :=
  match m with
  | [] => [⟨k, v, lvl⟩]
  | n :: t => if n.key < k then n :: minsert t k v lvl else ⟨k, v, lvl⟩ :: n :: t

/-- `MultiSkipMap::remove` (src lines 198-223): walk to the first node
whose key is ≥ `key`; when that node's key equals `key`, unlink the
consecutive run of nodes carrying that key (the `while node_eq_key` loop)
and return `true`; otherwise return `false` and leave the map unchanged. -/
def mremove (m : List MNode) (k : Nat) : Bool × List MNode :=
  match m with
  | [] => (false, [])
  | n :: t =>
    if n.key < k then
      let r := mremove t k
      (r.1, n :: r.2)
    else if n.key = k then
      (true, t.dropWhile (fun x => decide (x.key = k)))
    else (false, n :: t)

/-- Keys ascending (duplicates allowed) along the level-0 chain. -/
def SortedLe (m : List MNode) : Prop :=
  List.Pairwise (fun a b => a.key ≤ b.key) m

theorem mem_minsert {x : MNode} {m : List MNode} {k : Nat} {v : Value} {lvl : Nat}
    (h : x ∈ minsert m k v lvl) : x = ⟨k, v, lvl⟩ ∨ x ∈ m := by
  induction m with
  | nil => simpa [minsert] using h
  | cons n t ih =>
    by_cases h1 : n.key < k
    · rw [minsert, if_pos h1, List.mem_cons] at h
      rcases h with h' | h'
      · exact Or.inr (List.mem_cons.mpr (Or.inl h'))
      · rcases ih h' with h'' | h''
        · exact Or.inl h''
        · exact Or.inr (List.mem_cons.mpr (Or.inr h''))
    · rw [minsert, if_neg h1, List.mem_cons] at h
      rcases h with h' | h'
      · exact Or.inl h'
      · exact Or.inr h'

theorem sortedLe_minsert {m : List MNode} (h : SortedLe m) (k : Nat) (v : Value)
    (lvl : Nat) : SortedLe (minsert m k v lvl) := by
  induction m with
  | nil => simp [minsert, SortedLe]
  | cons n t ih =>
    rw [SortedLe, List.pairwise_cons] at h
    obtain ⟨hn, ht⟩ := h
    by_cases h1 : n.key < k
    · rw [minsert, if_pos h1, SortedLe, List.pairwise_cons]
      refine ⟨?_, ih ht⟩
      intro x hx
      rcases mem_minsert hx with h' | h'
      · rw [h']
        show n.key ≤ k
        omega
      · exact hn x h'
    · rw [minsert, if_neg h1, SortedLe, List.pairwise_cons]
      refine ⟨?_, List.pairwise_cons.mpr ⟨hn, ht⟩⟩
      intro x hx
      rcases List.mem_cons.mp hx with h' | h'
      · rw [h']
        show k ≤ n.key
        omega
      · have := hn x h'
        show k ≤ x.key
        omega

theorem minsert_perm (m : List MNode) (k : Nat) (v : Value) (lvl : Nat) :
    (minsert m k v lvl).Perm (⟨k, v, lvl⟩ :: m) := by
  induction m with
  | nil => simp [minsert]
  | cons n t ih =>
    by_cases h1 : n.key < k
    · rw [minsert, if_pos h1]
      exact (ih.cons n).trans (List.Perm.swap _ _ _)
    · rw [minsert, if_neg h1]

theorem minsert_length (m : List MNode) (k : Nat) (v : Value) (lvl : Nat) :
    (minsert m k v lvl).length = m.length + 1 := by
  have := (minsert_perm m k v lvl).length_eq
  simpa using this

theorem dropWhileEq_eq_filter {t : List MNode} {k : Nat} (hlb : ∀ x ∈ t, k ≤ x.key)
    (ht : SortedLe t) :
    t.dropWhile (fun x => decide (x.key = k)) = t.filter (fun n => !decide (n.key = k)) := by
  induction t with
  | nil => simp
  | cons x s ih =>
    rw [SortedLe, List.pairwise_cons] at ht
    obtain ⟨hx, hs⟩ := ht
    by_cases h1 : x.key = k
    · rw [List.dropWhile_cons_of_pos (by simp [h1]), List.filter_cons_of_neg (by simp [h1])]
      exact ih (fun y hy => hlb y (List.mem_cons.mpr (Or.inr hy))) hs
    · rw [List.dropWhile_cons_of_neg (by simp [h1]), List.filter_cons_of_pos (by simp [h1])]
      have hxk : k < x.key := by
        have := hlb x (List.mem_cons_self x s)
        omega
      have hall : ∀ y ∈ s, ¬ y.key = k := by
        intro y hy
        have := hx y hy
        omega
      have : s.filter (fun n => !decide (n.key = k)) = s := by
        rw [List.filter_eq_self]
        intro y hy
        simp [hall y hy]
      rw [this]

theorem mremove_snd_eq_filter {m : List MNode} (h : SortedLe m) (k : Nat) :
    (mremove m k).2 = m.filter (fun n => !decide (n.key = k)) := by
  induction m with
  | nil => simp [mremove]
  | cons n t ih =>
    rw [SortedLe, List.pairwise_cons] at h
    obtain ⟨hn, ht⟩ := h
    by_cases h1 : n.key < k
    · have hne : ¬ n.key = k := by omega
      rw [mremove]
      simp only [if_pos h1]
      rw [List.filter_cons_of_pos (by simp [hne])]
      rw [← ih ht]
    · by_cases h2 : n.key = k
      · rw [mremove]
        simp only [if_neg h1, if_pos h2]
        rw [List.filter_cons_of_neg (by simp [h2])]
        have hlb : ∀ x ∈ t, k ≤ x.key := by
          intro x hx
          have := hn x hx
          omega
        exact dropWhileEq_eq_filter hlb ht
      · rw [mremove]
        simp only [if_neg h1, if_neg h2]
        have hall : ∀ y ∈ n :: t, ¬ y.key = k := by
          intro y hy
          rcases List.mem_cons.mp hy with h' | h'
          · rw [h']; exact h2
          · have := hn y h'
            omega
        have : (n :: t).filter (fun x => !decide (x.key = k)) = n :: t := by
          rw [List.filter_eq_self]
          intro y hy
          simp [hall y hy]
        rw [this]

theorem mremove_fst_iff {m : List MNode} (h : SortedLe m) (k : Nat) :
    (mremove m k).1 = true ↔ ∃ n ∈ m, n.key = k := by
  induction m with
  | nil => simp [mremove]
  | cons n t ih =>
    rw [SortedLe, List.pairwise_cons] at h
    obtain ⟨hn, ht⟩ := h
    by_cases h1 : n.key < k
    · have hne : ¬ n.key = k := by omega
      rw [mremove]
      simp only [if_pos h1]
      rw [ih ht]
      simp [hne]
    · by_cases h2 : n.key = k
      · rw [mremove]
        simp only [if_neg h1, if_pos h2]
        simp only [true_iff]
        exact ⟨n, List.mem_cons_self n t, h2⟩
      · rw [mremove]
        simp only [if_neg h1, if_neg h2]
        refine iff_of_false (by simp) ?_
        rintro ⟨x, hx, hxk⟩
        rcases List.mem_cons.mp hx with h' | h'
        · rw [h'] at hxk
          exact h2 hxk
        · have := hn x h'
          omega

theorem length_filter_not_eq (k : Nat) (m : List MNode) :
    (m.filter (fun n => !decide (n.key = k))).length
      = m.length - (m.filter (fun n => decide (n.key = k))).length := by
  induction m with
  | nil => simp
  | cons n t ih =>
    have hle := List.length_filter_le (fun n : MNode => decide (n.key = k)) t
    by_cases h1 : n.key = k
    · rw [List.filter_cons_of_neg (by simp [h1]), List.filter_cons_of_pos (by simp [h1])]
      simp only [List.length_cons]
      omega
    · rw [List.filter_cons_of_pos (by simp [h1]), List.filter_cons_of_neg (by simp [h1])]
      simp only [List.length_cons]
      omega

/-- C6: for every sorted `MultiSkipMap` state containing `n ≥ 1` nodes
whose key equals `k` (duplicates allowed), `remove k` returns `true` and
removes every node whose key equals `k` — the length decreases by exactly
`n` and no node with key `k` remains; for a map containing no node with
key `k`, `remove k` returns `false` and leaves the map unchanged. -/
theorem C6_multiskipmap_remove_all (m : List MNode) (k : Nat) (h : SortedLe m) :
    (1 ≤ (m.filter (fun n => decide (n.key = k))).length →
      (mremove m k).1 = true ∧
      (mremove m k).2.length
        = m.length - (m.filter (fun n => decide (n.key = k))).length ∧
      ∀ n ∈ (mremove m k).2, ¬ n.key = k)
    ∧ ((m.filter (fun n => decide (n.key = k))).length = 0 →
      mremove m k = (false, m)) := by
  constructor
  · intro hcount
    refine ⟨?_, ?_, ?_⟩
    · rw [mremove_fst_iff h]
      have hne : (m.filter (fun n => decide (n.key = k))) ≠ [] := by
        intro hnil
        rw [hnil] at hcount
        simp at hcount
      rcases List.exists_mem_of_ne_nil _ hne with ⟨x, hx⟩
      have hx' := List.mem_filter.mp hx
      exact ⟨x, hx'.1, by simpa using hx'.2⟩
    · rw [mremove_snd_eq_filter h, length_filter_not_eq]
    · intro n hn
      rw [mremove_snd_eq_filter h] at hn
      have := List.mem_filter.mp hn
      simpa using this.2
  · intro hcount
    have hall : ∀ n ∈ m, ¬ n.key = k := by
      intro n hn hk
      have hmem : n ∈ m.filter (fun n => decide (n.key = k)) :=
        List.mem_filter.mpr ⟨hn, by simp [hk]⟩
      rw [List.length_eq_zero] at hcount
      rw [hcount] at hmem
      simp at hmem
    have h1 : (mremove m k).1 = false := by
      cases hb : (mremove m k).1
      · rfl
      · exfalso
        rcases (mremove_fst_iff h k).mp hb with ⟨n, hn, hk⟩
        exact hall n hn hk
    have h2 : (mremove m k).2 = m := by
      rw [mremove_snd_eq_filter h, List.filter_eq_self]
      intro y hy
      simp [hall y hy]
    exact Prod.ext h1 h2

/-- C6 witness: three duplicates of key 5 are all removed (scenario 3 of
the spec), and removing an absent key is a no-op returning `false`. -/
theorem C6_multiskipmap_remove_all_witness :
    (mremove [⟨5, "a", 1⟩, ⟨5, "b", 0⟩, ⟨5, "c", 0⟩] 5).1 = true ∧
    (mremove [⟨5, "a", 1⟩, ⟨5, "b", 0⟩, ⟨5, "c", 0⟩] 5).2.length = 0 ∧
    mremove [⟨3, "x", 0⟩] 5 = (false, [⟨3, "x", 0⟩]) := by
  have h1 := C6_multiskipmap_remove_all [⟨5, "a", 1⟩, ⟨5, "b", 0⟩, ⟨5, "c", 0⟩] 5
    (by rw [SortedLe]; decide)
  have h2 := C6_multiskipmap_remove_all [⟨3, "x", 0⟩] 5 (by rw [SortedLe]; decide)
  refine ⟨(h1.1 (by decide)).1, ?_, h2.2 (by decide)⟩
  have := (h1.1 (by decide)).2.1
  simpa using this

/-- Folding a sequence of insertions (key, value, random level) into an
empty `MultiSkipMap`. -/
def mbuild (ins : List (Nat × Value × Nat)) : List MNode :=
  ins.foldl (fun m e => minsert m e.1 e.2.1 e.2.2) []

theorem mchain_zero (m : List MNode) : mchain 0 m = m := by
  rw [mchain, List.filter_eq_self]
  intro x hx
  simp

theorem mchain_sorted {m : List MNode} (h : SortedLe m) (L : Nat) :
    SortedLe (mchain L m) :=
  h.sublist (List.filter_sublist m)

theorem mchain_sublist_chain_zero (m : List MNode) (L : Nat) :
    List.Sublist (mchain L m) (mchain 0 m) := by
  rw [mchain_zero]
  exact List.filter_sublist m

theorem mbuild_aux (ins : List (Nat × Value × Nat)) (m : List MNode)
    (h : SortedLe m) :
    SortedLe (ins.foldl (fun m e => minsert m e.1 e.2.1 e.2.2) m) ∧
    ((ins.foldl (fun m e => minsert m e.1 e.2.1 e.2.2) m).map (fun n => n.key)).Perm
      (ins.map (fun e => e.1) ++ m.map (fun n => n.key)) := by
  induction ins generalizing m with
  | nil => simp [h]
  | cons e rest ih =>
    have hstep : (e :: rest).foldl (fun m e => minsert m e.1 e.2.1 e.2.2) m
        = rest.foldl (fun m e => minsert m e.1 e.2.1 e.2.2) (minsert m e.1 e.2.1 e.2.2) :=
      rfl
    obtain ⟨hs, hp⟩ := ih (minsert m e.1 e.2.1 e.2.2) (sortedLe_minsert h e.1 e.2.1 e.2.2)
    rw [hstep]
    refine ⟨hs, ?_⟩
    have hmp : ((minsert m e.1 e.2.1 e.2.2).map (fun n => n.key)).Perm
        (e.1 :: m.map (fun n => n.key)) := by
      have := (minsert_perm m e.1 e.2.1 e.2.2).map (fun n => n.key)
      simpa using this
    have hgoal : (e :: rest).map (fun e => e.1) ++ m.map (fun n => n.key)
        = e.1 :: (rest.map (fun e => e.1) ++ m.map (fun n => n.key)) := by simp
    rw [hgoal]
    exact hp.trans ((List.Perm.append_left _ hmp).trans List.perm_middle)

/-- C7: for every order of inserting N distinct keys (with arbitrary
random levels) into an empty skip list, level-0 iteration yields exactly
those keys in strictly ascending order and `len == N`; and a single
`insert` or `remove` applied to a sorted map leaves the forward chain at
each level sorted ascending and a subsequence of the level-0 chain. -/
theorem C7_skiplist_order_invariants :
    (∀ ins : List (Nat × Value × Nat), (ins.map (fun e => e.1)).Nodup →
      List.Pairwise (fun a b => a.key < b.key) (mbuild ins) ∧
      (mbuild ins).length = ins.length ∧
      ((mbuild ins).map (fun n => n.key)).Perm (ins.map (fun e => e.1)))
    ∧ (∀ (m : List MNode) (k : Nat) (v : Value) (lvl : Nat), SortedLe m → ∀ L,
        SortedLe (mchain L (minsert m k v lvl)) ∧
        List.Sublist (mchain L (minsert m k v lvl)) (mchain 0 (minsert m k v lvl)))
    ∧ (∀ (m : List MNode) (k : Nat), SortedLe m → ∀ L,
        SortedLe (mchain L (mremove m k).2) ∧
        List.Sublist (mchain L (mremove m k).2) (mchain 0 (mremove m k).2)) := by
  refine ⟨?_, ?_, ?_⟩
  · intro ins hnd
    obtain ⟨hs, hp⟩ := mbuild_aux ins [] List.Pairwise.nil
    simp only [List.map_nil, List.append_nil] at hp
    have hperm : ((mbuild ins).map (fun n => n.key)).Perm (ins.map (fun e => e.1)) := hp
    have hlen : (mbuild ins).length = ins.length := by
      have := hperm.length_eq
      simpa using this
    refine ⟨?_, hlen, hperm⟩
    have hnd' : ((mbuild ins).map (fun n => n.key)).Nodup :=
      (hperm.nodup_iff).mpr hnd
    rw [List.Nodup, List.pairwise_map] at hnd'
    exact (hs.and hnd').imp (fun hab => lt_of_le_of_ne hab.1 hab.2)
  · intro m k v lvl h L
    exact ⟨mchain_sorted (sortedLe_minsert h k v lvl) L,
      mchain_sublist_chain_zero _ L⟩
  · intro m k h L
    have hs : SortedLe (mremove m k).2 := by
      rw [mremove_snd_eq_filter h]
      exact h.sublist (List.filter_sublist m)
    exact ⟨mchain_sorted hs L, mchain_sublist_chain_zero _ L⟩

/-- C7 witness: inserting keys 2 then 1 (distinct) yields ascending
iteration of length 2, and the chain invariants hold concretely after an
insert and a remove on a one-node map. -/
theorem C7_skiplist_order_invariants_witness :
    List.Pairwise (fun a b => a.key < b.key) (mbuild [(2, "b", 1), (1, "a", 0)]) ∧
    (mbuild [(2, "b", 1), (1, "a", 0)]).length = 2 ∧
    SortedLe (mchain 1 (minsert [⟨1, "a", 0⟩] 2 "b" 3)) ∧
    SortedLe (mchain 1 (mremove [⟨1, "a", 0⟩] 1).2) := by
  refine ⟨(C7_skiplist_order_invariants.1 [(2, "b", 1), (1, "a", 0)] (by decide)).1,
    (C7_skiplist_order_invariants.1 [(2, "b", 1), (1, "a", 0)] (by decide)).2.1,
    (C7_skiplist_order_invariants.2.1 [⟨1, "a", 0⟩] 2 "b" 3 (by rw [SortedLe]; decide) 1).1,
    (C7_skiplist_order_invariants.2.2 [⟨1, "a", 0⟩] 1 (by rw [SortedLe]; decide) 1).1⟩

/-!
Level-0 → level-1 compaction (src/src/sstable/level0_compact.rs).
Tables are lists of key-value pairs in file order;
`LEVEL0_FILES_THRESHOLD = 4`.
-/

abbrev KV := Nat × Value

/-- `merge_level0_tables` (src lines 174-182): every entry of every
level-0 table is inserted, in order, into a fresh unique skip map, so a
later insertion overwrites an earlier value of the same key. -/
def mergeLevel0Tables (tables : List (List KV)) : List KV :=
  tables.foldl (fun m t => t.foldl (fun m kv => SkipMap.insert m kv.1 kv.2) m) []

/-- One `temp_kvs.push(kv)` followed by the
`temp_kvs.len() % level1_table_size == 0` flush check of
`compact_and_insert`: the state is (tables flushed so far, current
`temp_kvs`). -/
def pushKV (P : Nat) (st : List (List KV) × List KV) (kv : KV) :
    List (List KV) × List KV :=
  let temp := st.2 ++ [kv]
  if temp.length % P = 0 then (st.1 ++ [temp], []) else (st.1, temp)

/-- The final `if !temp_kvs.is_empty() { add_table_handle(...) }` drain of
`compact_and_insert`. -/
def finishTables (st : List (List KV) × List KV) : List (List KV) :=
  if st.2.isEmpty then st.1 else st.1 ++ [st.2]

/-- The inner `loop` of `compact_and_insert` (src lines 70-116), handling
one level-1 entry `e1` against the level-0 iterator: on equal keys the
level-0 entry is pushed and `e1` dropped; when the level-0 key is larger,
`e1` is pushed; when smaller, the level-0 entry is pushed and the loop
continues; an exhausted iterator pushes `e1` (src lines 62-68 and
106-112).  Returns the buffer state and the remaining level-0 entries. -/
def mergePush1 (P : Nat) (e1 : KV) (st : List (List KV) × List KV) :
    List KV → (List (List KV) × List KV) × List KV
  | [] => (pushKV P st e1, [])
  | e0 :: t0 =>
    if e0.1 = e1.1 then (pushKV P st e0, t0)
    else if e1.1 < e0.1 then (pushKV P st e1, e0 :: t0)
    else mergePush1 P e1 (pushKV P st e0) t0

/-- The outer loop of `compact_and_insert` over the concatenated level-1
stream (src lines 57-118), followed by the drain of the remaining level-0
entries (src lines 122-132). -/
def mergeFold (P : Nat) (st : List (List KV) × List KV) :
    List KV → List KV → List (List KV) × List KV
  | l0, [] => l0.foldl (pushKV P) st
  | l0, e1 :: t1 =>
    let r := mergePush1 P e1 st l0
    mergeFold P r.1 r.2 t1

/-- The bare sequence of key-values pushed by the merge loop, without the
buffering: the reference stream for the partitioning proofs. -/
def emitStream : List KV → List KV → List KV
  | l0, [] => l0
  | [], e1 :: t1 => e1 :: emitStream [] t1
  | e0 :: t0, e1 :: t1 =>
    if e0.1 = e1.1 then e0 :: emitStream t0 t1
    else if e1.1 < e0.1 then e1 :: emitStream (e0 :: t0) t1
    else e0 :: emitStream t0 (e1 :: t1)
termination_by l0 l1 => l0.length + l1.length

/-- Output tables of `compact_and_insert` when the level-1 deque is
non-empty (src lines 44-137).  `kv_total` counts the merged level-0 map
plus the `kv_total()` of every level-1 handle, and
`P = kv_total / LEVEL0_FILES_THRESHOLD`.  When `P = 0` and there is at
least one entry to push, the Rust code evaluates `temp_kvs.len() % 0`,
which panics (the situation is excluded only by a `debug_assert!`); the
panic is modelled as `none`. -/
def compactNonEmptyL1 (l0 : List KV) (l1tables : List (List KV)) :
    Option (List (List KV)) :=
  let kvTotal := l0.length + (l1tables.map List.length).sum
  let P := kvTotal / 4
  if kvTotal = 0 then some []
  else if P = 0 then none
  else some (finishTables (mergeFold P ([], []) l0 l1tables.flatten))

/-- Output tables of `compact_and_insert` when the level-1 deque is empty
(src lines 21-43): `P = |L0| / 4`; when `P = 0` the whole merged map is
written as one table, otherwise the level-0 iteration is flushed through
the same `temp_kvs` buffer. -/
def compactEmptyL1 (l0 : List KV) : List (List KV) :=
  let P := l0.length / 4
  if P = 0 then [l0]
  else finishTables (l0.foldl (pushKV P) ([], []))

/-- `compact_and_insert` (src lines 13-145): merge the level-0 tables into
one sorted unique map, then partition, branching on emptiness of the
level-1 deque. -/
def compactAndInsert (l0tables : List (List KV)) (l1tables : List (List KV)) :
    Option (List (List KV)) :=
  let l0 := mergeLevel0Tables l0tables
  if l1tables.isEmpty then some (compactEmptyL1 l0)
  else compactNonEmptyL1 l0 l1tables

/-- Reference chunking of a pushed stream: the tables flushed so far and
the remaining buffer. -/
def chunksAux (P : Nat) (temp : List KV) : List KV → List (List KV) × List KV
  | [] => ([], temp)
  | kv :: rest =>
    if (temp ++ [kv]).length % P = 0 then
      let r := chunksAux P [] rest
      ((temp ++ [kv]) :: r.1, r.2)
    else chunksAux P (temp ++ [kv]) rest

theorem foldl_pushKV_eq (P : Nat) (l : List KV) (outs : List (List KV)) (temp : List KV) :
    l.foldl (pushKV P) (outs, temp)
      = (outs ++ (chunksAux P temp l).1, (chunksAux P temp l).2) := by
  induction l generalizing outs temp with
  | nil => simp [chunksAux]
  | cons kv rest ih =>
    by_cases h : (temp ++ [kv]).length % P = 0
    · rw [List.foldl_cons]
      have hpush : pushKV P (outs, temp) kv = (outs ++ [temp ++ [kv]], []) := by
        simp only [pushKV]
        rw [if_pos h]
      rw [hpush, ih]
      rw [chunksAux]
      simp only [if_pos h]
      simp
    · rw [List.foldl_cons]
      have hpush : pushKV P (outs, temp) kv = (outs, temp ++ [kv]) := by
        simp only [pushKV]
        rw [if_neg h]
      rw [hpush, ih]
      rw [chunksAux]
      simp only [if_neg h]

theorem chunksAux_spec (P : Nat) (hP : 0 < P) (l : List KV) :
    ∀ temp : List KV, temp.length < P →
      (chunksAux P temp l).1.flatten ++ (chunksAux P temp l).2 = temp ++ l ∧
      (∀ c ∈ (chunksAux P temp l).1, c.length = P) ∧
      (chunksAux P temp l).2.length < P := by
  induction l with
  | nil =>
    intro temp h
    simp [chunksAux, h]
  | cons kv rest ih =>
    intro temp h
    by_cases hf : (temp ++ [kv]).length % P = 0
    · have hlen : (temp ++ [kv]).length = P := by
        have h1 : (temp ++ [kv]).length = temp.length + 1 := by simp
        rcases Nat.lt_or_ge (temp.length + 1) P with hlt | hge
        · rw [h1, Nat.mod_eq_of_lt hlt] at hf
          omega
        · omega
      obtain ⟨hj, hc, hr⟩ := ih [] (by simpa using hP)
      rw [chunksAux]
      simp only [if_pos hf]
      refine ⟨?_, ?_, hr⟩
      · simp only [List.flatten_cons, List.append_assoc, hj]
        simp
      · intro c hc'
        rcases List.mem_cons.mp hc' with h' | h'
        · rw [h', hlen]
        · exact hc c h'
    · have hlt : (temp ++ [kv]).length < P := by
        have h1 : (temp ++ [kv]).length = temp.length + 1 := by simp
        rcases Nat.lt_or_ge (temp.length + 1) P with hlt | hge
        · omega
        · have heqP : temp.length + 1 = P := by omega
          rw [h1, heqP] at hf
          simp at hf
      obtain ⟨hj, hc, hr⟩ := ih (temp ++ [kv]) hlt
      rw [chunksAux]
      simp only [if_neg hf]
      refine ⟨?_, hc, hr⟩
      rw [hj]
      simp

theorem mergeFold_eq (P : Nat) (l0 l1 : List KV) (st : List (List KV) × List KV) :
    mergeFold P st l0 l1 = (emitStream l0 l1).foldl (pushKV P) st := by
  induction l0, l1 using emitStream.induct generalizing st with
  | case1 l0 => rw [mergeFold, emitStream]
  | case2 e1 t1 ih =>
    rw [mergeFold, emitStream, List.foldl_cons]
    simp only [mergePush1]
    exact ih _
  | case3 e0 t0 e1 t1 heq ih =>
    rw [mergeFold, emitStream]
    simp only [mergePush1, if_pos heq, List.foldl_cons]
    exact ih _
  | case4 e0 t0 e1 t1 hne hlt ih =>
    rw [mergeFold, emitStream]
    simp only [mergePush1, if_neg hne, if_pos hlt, List.foldl_cons]
    exact ih _
  | case5 e0 t0 e1 t1 hne hlt ih =>
    rw [mergeFold, emitStream]
    simp only [mergePush1, if_neg hne, if_neg hlt, List.foldl_cons]
    have hstep : mergeFold P (pushKV P st e0) t0 (e1 :: t1)
        = mergeFold P (mergePush1 P e1 (pushKV P st e0) t0).1
            (mergePush1 P e1 (pushKV P st e0) t0).2 t1 := by
      rw [mergeFold]
    rw [← hstep]
    exact ih _

/-- Association lookup: the binding of `k` in a table (first occurrence). -/
def assocGet (l : List KV) (k : Nat) : Option Value :=
  (l.find? (fun e => decide (e.1 = k))).map (fun e => e.2)

/-- The newest binding of `k` in a stream of insertions: the value of the
last entry with key `k` (later insertions win). -/
def lastOf : List KV → Nat → Option Value
  | [], _ => none
  | kv :: rest, k =>
    match lastOf rest k with
    | some v => some v
    | none => if kv.1 = k then some kv.2 else none

theorem assocGet_nil (k : Nat) : assocGet [] k = none := rfl

theorem assocGet_cons_self {e : KV} {k : Nat} (h : e.1 = k) (t : List KV) :
    assocGet (e :: t) k = some e.2 := by
  simp [assocGet, List.find?, h]

theorem assocGet_cons_ne {e : KV} {k : Nat} (h : ¬ e.1 = k) (t : List KV) :
    assocGet (e :: t) k = assocGet t k := by
  simp [assocGet, List.find?, h]

theorem assocGet_eq_none_of_all {l : List KV} {k : Nat}
    (h : ∀ e ∈ l, ¬ e.1 = k) : assocGet l k = none := by
  rw [assocGet]
  have : l.find? (fun e => decide (e.1 = k)) = none := by
    rw [List.find?_eq_none]
    intro x hx
    simp [h x hx]
  rw [this]
  rfl

theorem foldl_insert_sorted (l : List KV) {m : List KV} (h : SkipMap.Sorted m) :
    SkipMap.Sorted (l.foldl (fun m kv => SkipMap.insert m kv.1 kv.2) m) := by
  induction l generalizing m with
  | nil => exact h
  | cons kv rest ih => exact ih (SkipMap.sorted_insert h kv.1 kv.2)

theorem foldl_insert_get (l : List KV) {m : List KV} (h : SkipMap.Sorted m) (k : Nat) :
    SkipMap.get? (l.foldl (fun m kv => SkipMap.insert m kv.1 kv.2) m) k
      = match lastOf l k with
        | some v => some v
        | none => SkipMap.get? m k := by
  induction l generalizing m with
  | nil => simp [lastOf]
  | cons kv rest ih =>
    rw [List.foldl_cons, ih (SkipMap.sorted_insert h kv.1 kv.2)]
    cases hrest : lastOf rest k with
    | some v => simp [lastOf, hrest]
    | none =>
      by_cases hk : kv.1 = k
      · subst hk
        simp [lastOf, hrest, SkipMap.get_insert_self]
      · have hne : k ≠ kv.1 := Ne.symm hk
        simp [lastOf, hrest, hk, SkipMap.get_insert_ne h _ hne]

theorem mergeLevel0Tables_eq_flatten (tables : List (List KV)) :
    mergeLevel0Tables tables
      = tables.flatten.foldl (fun m kv => SkipMap.insert m kv.1 kv.2) [] := by
  rw [mergeLevel0Tables]
  generalize ([] : List KV) = m
  induction tables generalizing m with
  | nil => simp
  | cons t rest ih =>
    rw [List.flatten_cons, List.foldl_append, List.foldl_cons]
    exact ih _

theorem mergeLevel0Tables_sorted (tables : List (List KV)) :
    SkipMap.Sorted (mergeLevel0Tables tables) := by
  rw [mergeLevel0Tables_eq_flatten]
  exact foldl_insert_sorted _ SkipMap.sorted_nil

theorem mergeLevel0Tables_get (tables : List (List KV)) (k : Nat) :
    SkipMap.get? (mergeLevel0Tables tables) k = lastOf tables.flatten k := by
  rw [mergeLevel0Tables_eq_flatten, foldl_insert_get _ SkipMap.sorted_nil]
  cases h : lastOf tables.flatten k <;>
    simp [SkipMap.get?, SkipMap.findFirstGe]

theorem assocGet_eq_skipGet {l : List KV} (h : SkipMap.Sorted l) (k : Nat) :
    assocGet l k = SkipMap.get? l k := by
  induction l with
  | nil => rfl
  | cons e t ih =>
    rw [SkipMap.Sorted, List.pairwise_cons] at h
    obtain ⟨he, ht⟩ := h
    by_cases hk : e.1 = k
    · rw [assocGet_cons_self hk]
      have hle : k ≤ e.1 := le_of_eq hk.symm
      simp [SkipMap.get?, SkipMap.findFirstGe, List.find?, hle, hk]
    · rw [assocGet_cons_ne hk]
      by_cases hlt : k < e.1
      · have hnone : assocGet t k = none := by
          refine assocGet_eq_none_of_all ?_
          intro x hx
          have := he x hx
          omega
        rw [hnone]
        have hle : k ≤ e.1 := le_of_lt hlt
        simp [SkipMap.get?, SkipMap.findFirstGe, List.find?, hle, hk]
      · have hgt : ¬ k ≤ e.1 := by omega
        rw [ih ht]
        simp [SkipMap.get?, SkipMap.findFirstGe, List.find?, hgt]

theorem emit_assocGet (l0 l1 : List KV) (k : Nat) :
    SkipMap.Sorted l0 → SkipMap.Sorted l1 →
    assocGet (emitStream l0 l1) k
      = match assocGet l0 k with
        | some v => some v
        | none => assocGet l1 k := by
  induction l0, l1 using emitStream.induct with
  | case1 l0 =>
    intro h0 h1
    rw [emitStream]
    cases h : assocGet l0 k <;> simp [h, assocGet_nil]
  | case2 e1 t1 ih =>
    intro h0 h1
    rw [SkipMap.Sorted, List.pairwise_cons] at h1
    rw [emitStream]
    by_cases hk : e1.1 = k
    · rw [assocGet_cons_self hk, assocGet_nil, assocGet_cons_self hk]
    · rw [assocGet_cons_ne hk, assocGet_nil, assocGet_cons_ne hk,
        ih h0 h1.2, assocGet_nil]
  | case3 e0 t0 e1 t1 heq ih =>
    intro h0 h1
    rw [SkipMap.Sorted, List.pairwise_cons] at h0 h1
    rw [emitStream]
    simp only [if_pos heq]
    by_cases hk : e0.1 = k
    · rw [assocGet_cons_self hk, assocGet_cons_self hk]
    · have hk1 : ¬ e1.1 = k := by rw [← heq]; exact hk
      rw [assocGet_cons_ne hk, assocGet_cons_ne hk, assocGet_cons_ne hk1]
      exact ih h0.2 h1.2
  | case4 e0 t0 e1 t1 hne hlt ih =>
    intro h0 h1
    rw [SkipMap.Sorted, List.pairwise_cons] at h1
    rw [emitStream]
    simp only [if_neg hne, if_pos hlt]
    by_cases hk : e1.1 = k
    · have h0none : assocGet (e0 :: t0) k = none := by
        refine assocGet_eq_none_of_all ?_
        intro x hx
        rw [SkipMap.Sorted, List.pairwise_cons] at h0
        rcases List.mem_cons.mp hx with h' | h'
        · rw [h']
          omega
        · have := h0.1 x h'
          omega
      rw [assocGet_cons_self hk, h0none, assocGet_cons_self hk]
    · rw [assocGet_cons_ne hk, ih h0 h1.2, assocGet_cons_ne hk]
  | case5 e0 t0 e1 t1 hne hlt ih =>
    intro h0 h1
    rw [SkipMap.Sorted, List.pairwise_cons] at h0
    rw [emitStream]
    simp only [if_neg hne, if_neg hlt]
    by_cases hk : e0.1 = k
    · rw [assocGet_cons_self hk, assocGet_cons_self hk]
    · rw [assocGet_cons_ne hk, assocGet_cons_ne hk]
      exact ih h0.2 h1

theorem finishTables_flatten (st : List (List KV) × List KV) :
    (finishTables st).flatten = st.1.flatten ++ st.2 := by
  rw [finishTables]
  by_cases h : st.2.isEmpty
  · rw [if_pos h]
    have h2 : st.2 = [] := by
      cases hs : st.2
      · rfl
      · rw [hs] at h
        simp at h
    rw [h2]
    simp
  · rw [if_neg h]
    simp

theorem mergeOuts_flatten (P : Nat) (hP : 0 < P) (l0 l1f : List KV) :
    (finishTables (mergeFold P ([], []) l0 l1f)).flatten = emitStream l0 l1f := by
  rw [mergeFold_eq, foldl_pushKV_eq, finishTables_flatten]
  obtain ⟨hj, -, -⟩ := chunksAux_spec P hP (emitStream l0 l1f) [] (by simpa using hP)
  simpa using hj

theorem drainOuts_flatten (P : Nat) (hP : 0 < P) (l0 : List KV) :
    (finishTables (l0.foldl (pushKV P) ([], []))).flatten = l0 := by
  rw [foldl_pushKV_eq, finishTables_flatten]
  obtain ⟨hj, -, -⟩ := chunksAux_spec P hP l0 [] (by simpa using hP)
  simpa using hj

theorem compactNonEmptyL1_zero (l0 : List KV) (l1tables : List (List KV))
    (h : l0.length + (l1tables.map List.length).sum = 0) :
    compactNonEmptyL1 l0 l1tables = some [] := by
  simp only [compactNonEmptyL1]
  rw [if_pos h]

theorem compactNonEmptyL1_panic (l0 : List KV) (l1tables : List (List KV))
    (h : 0 < l0.length + (l1tables.map List.length).sum)
    (hP : (l0.length + (l1tables.map List.length).sum) / 4 = 0) :
    compactNonEmptyL1 l0 l1tables = none := by
  simp only [compactNonEmptyL1]
  rw [if_neg (by omega), if_pos hP]

theorem compactNonEmptyL1_pos (l0 : List KV) (l1tables : List (List KV))
    (hP : 0 < (l0.length + (l1tables.map List.length).sum) / 4) :
    compactNonEmptyL1 l0 l1tables
      = some (finishTables
          (mergeFold ((l0.length + (l1tables.map List.length).sum) / 4)
            ([], []) l0 l1tables.flatten)) := by
  have h4 : 4 ≤ l0.length + (l1tables.map List.length).sum := by
    by_contra hc
    rw [Nat.div_eq_of_lt (by omega)] at hP
    omega
  simp only [compactNonEmptyL1]
  rw [if_neg (by omega), if_neg (by omega)]

theorem compactEmptyL1_zero (l0 : List KV) (h : l0.length / 4 = 0) :
    compactEmptyL1 l0 = [l0] := by
  simp only [compactEmptyL1]
  rw [if_pos h]

theorem compactEmptyL1_pos (l0 : List KV) (h : 0 < l0.length / 4) :
    compactEmptyL1 l0 = finishTables (l0.foldl (pushKV (l0.length / 4)) ([], [])) := by
  simp only [compactEmptyL1]
  rw [if_neg (by omega)]

theorem compactEmptyL1_flatten (l0 : List KV) : (compactEmptyL1 l0).flatten = l0 := by
  by_cases h : l0.length / 4 = 0
  · rw [compactEmptyL1_zero l0 h]
    simp
  · rw [compactEmptyL1_pos l0 (by omega)]
    exact drainOuts_flatten _ (by omega) l0

theorem compactAndInsert_empty (l0tables : List (List KV)) :
    compactAndInsert l0tables []
      = some (compactEmptyL1 (mergeLevel0Tables l0tables)) := by
  simp only [compactAndInsert]
  rfl

theorem compactAndInsert_nonEmpty (l0tables : List (List KV))
    {l1tables : List (List KV)} (h : l1tables ≠ []) :
    compactAndInsert l0tables l1tables
      = compactNonEmptyL1 (mergeLevel0Tables l0tables) l1tables := by
  simp only [compactAndInsert]
  rw [if_neg (by simpa using h)]

/-- C2: for every compaction of level-0 tables with a (possibly empty)
sequence of level-1 tables whose concatenated entries are strictly sorted
(the level-1 tables are sorted and non-overlapping in order), and every
output `outs` that `compact_and_insert` produces: the binding of each key
in the union of the output tables is exactly the newest input value —
the value of the last level-0 insertion of that key when the key occurs
at level 0 (level-0 beats level-1 and the later-inserted level-0 table
wins), otherwise the level-1 value; keys absent from every input are
absent from the output. -/
theorem C2_compaction_newest_value (l0tables l1tables outs : List (List KV))
    (h1 : SkipMap.Sorted l1tables.flatten)
    (hout : compactAndInsert l0tables l1tables = some outs) (k : Nat) :
    assocGet outs.flatten k
      = match lastOf l0tables.flatten k with
        | some v => some v
        | none => assocGet l1tables.flatten k := by
  have hl0s := mergeLevel0Tables_sorted l0tables
  have hbridge : assocGet (mergeLevel0Tables l0tables) k = lastOf l0tables.flatten k := by
    rw [assocGet_eq_skipGet hl0s, mergeLevel0Tables_get]
  cases hl1 : l1tables with
  | nil =>
    rw [hl1] at hout
    rw [compactAndInsert_empty] at hout
    have houts : outs = compactEmptyL1 (mergeLevel0Tables l0tables) :=
      (Option.some_injective _ hout).symm
    rw [houts, compactEmptyL1_flatten, hbridge]
    cases lastOf l0tables.flatten k <;> simp [assocGet_nil]
  | cons t1 trest =>
    rw [← hl1]
    have hne : l1tables ≠ [] := by rw [hl1]; simp
    rw [compactAndInsert_nonEmpty l0tables hne] at hout
    by_cases hkv : (mergeLevel0Tables l0tables).length + (l1tables.map List.length).sum = 0
    · rw [compactNonEmptyL1_zero _ _ hkv] at hout
      have houts : outs = [] := (Option.some_injective _ hout).symm
      have hl0nil : mergeLevel0Tables l0tables = [] :=
        List.length_eq_zero.mp (by omega)
      have hl1nil : l1tables.flatten = [] := by
        rw [← List.length_eq_zero, List.length_flatten]
        omega
      have hlast : lastOf l0tables.flatten k = none := by
        rw [← mergeLevel0Tables_get, hl0nil]
        rfl
      rw [houts, hlast, hl1nil]
      rfl
    · by_cases hP :
        ((mergeLevel0Tables l0tables).length + (l1tables.map List.length).sum) / 4 = 0
      · rw [compactNonEmptyL1_panic _ _ (by omega) hP] at hout
        cases hout
      · rw [compactNonEmptyL1_pos _ _ (by omega)] at hout
        have houts := (Option.some_injective _ hout).symm
        rw [houts, mergeOuts_flatten _ (by omega)]
        rw [emit_assocGet _ _ k hl0s h1, hbridge]

/-- C2 witness: two level-0 tables (the later one overriding key 3) and
one level-1 table (overlapping on key 3): key 3 takes the later level-0
value, key 2 the level-1 value, key 1 the level-0 value, and key 9 —
absent from every input — is absent from the output. -/
theorem C2_compaction_newest_value_witness :
    assocGet [[(1, "a")], [(2, "b")], [(3, "cc")]].flatten 3 = some "cc" ∧
    assocGet [[(1, "a")], [(2, "b")], [(3, "cc")]].flatten 2 = some "b" ∧
    assocGet [[(1, "a")], [(2, "b")], [(3, "cc")]].flatten 1 = some "a" ∧
    assocGet [[(1, "a")], [(2, "b")], [(3, "cc")]].flatten 9 = none := by
  have h3 := C2_compaction_newest_value [[(1, "a"), (3, "c")], [(3, "cc")]]
    [[(2, "b"), (3, "old")]] [[(1, "a")], [(2, "b")], [(3, "cc")]]
    (by rw [SkipMap.Sorted]; decide) (by decide) 3
  have h2 := C2_compaction_newest_value [[(1, "a"), (3, "c")], [(3, "cc")]]
    [[(2, "b"), (3, "old")]] [[(1, "a")], [(2, "b")], [(3, "cc")]]
    (by rw [SkipMap.Sorted]; decide) (by decide) 2
  have hone := C2_compaction_newest_value [[(1, "a"), (3, "c")], [(3, "cc")]]
    [[(2, "b"), (3, "old")]] [[(1, "a")], [(2, "b")], [(3, "cc")]]
    (by rw [SkipMap.Sorted]; decide) (by decide) 1
  have h9 := C2_compaction_newest_value [[(1, "a"), (3, "c")], [(3, "cc")]]
    [[(2, "b"), (3, "old")]] [[(1, "a")], [(2, "b")], [(3, "cc")]]
    (by rw [SkipMap.Sorted]; decide) (by decide) 9
  refine ⟨?_, ?_, ?_, ?_⟩
  · rw [h3]; decide
  · rw [h2]; decide
  · rw [hone]; decide
  · rw [h9]; decide

theorem finish_chunks (P : Nat) (hP : 0 < P) (l : List KV) :
    (finishTables (l.foldl (pushKV P) ([], []))).flatten = l ∧
    (∀ t ∈ finishTables (l.foldl (pushKV P) ([], [])), t ≠ [] ∧ t.length ≤ P) ∧
    ∀ t ∈ (finishTables (l.foldl (pushKV P) ([], []))).dropLast, t.length = P := by
  obtain ⟨hj, hc, hr⟩ := chunksAux_spec P hP l [] (by simpa using hP)
  rw [foldl_pushKV_eq]
  simp only [List.nil_append] at hj ⊢
  rw [finishTables]
  by_cases h2 : (chunksAux P [] l).2.isEmpty
  · have h2' : (chunksAux P [] l).2 = [] := by
      cases hs : (chunksAux P [] l).2
      · rfl
      · rw [hs] at h2
        simp at h2
    rw [if_pos h2]
    rw [h2', List.append_nil] at hj
    refine ⟨hj, ?_, ?_⟩
    · intro t ht
      have := hc t ht
      constructor
      · intro hnil
        rw [hnil] at this
        simp at this
        omega
      · omega
    · intro t ht
      exact hc t ((List.dropLast_sublist _).subset ht)
  · have h2' : (chunksAux P [] l).2 ≠ [] := by
      intro hs
      rw [hs] at h2
      simp at h2
    rw [if_neg h2]
    refine ⟨?_, ?_, ?_⟩
    · rw [List.flatten_append]
      simpa using hj
    · intro t ht
      rcases List.mem_append.mp ht with h' | h'
      · have := hc t h'
        constructor
        · intro hnil
          rw [hnil] at this
          simp at this
          omega
        · omega
      · have ht2 : t = (chunksAux P [] l).2 := by simpa using h'
        rw [ht2]
        exact ⟨h2', by omega⟩
    · intro t ht
      have hdl : ((chunksAux P [] l).1 ++ [(chunksAux P [] l).2]).dropLast
          = (chunksAux P [] l).1 := by
        rw [List.dropLast_concat]
      rw [hdl] at ht
      exact hc t ht

/-- C9 counterexample: one level-0 table with one entry and one level-1
table with one entry give `P = (1 + 1) / 4 = 0`, yet the code does not
emit the merged level-0 map as a single output table — it reaches
`temp_kvs.len() % 0` and panics (modelled as `none`); the claim's "P = 0
emits a single table" rule only exists in the empty-level-1 branch. -/
theorem C9_zero_partition_counterexample :
    compactAndInsert [[(1, "a")]] [[(2, "b")]] = none ∧
    compactAndInsert [[(1, "a")]] [[(2, "b")]]
      ≠ some [mergeLevel0Tables [[(1, "a")]]] := by
  constructor <;> decide

/-- C9 (amended): with an empty level-1 deque the partition size is
`P = |L0| / 4`, and `P = 0` emits the whole merged map as one table;
with a non-empty level-1 deque `P = (|L0| + Σ|L1_i|) / 4`, and `P = 0`
with at least one input entry makes the code panic on `len % 0` (`none`)
instead of emitting a single table.  Whenever `P > 0`, the output
concatenation equals the merged stream, every emitted table is non-empty
with at most `P` entries, and every table except the final partial one
has exactly `P` entries (the buffer is flushed exactly when its length
reaches a multiple of `P`). -/
theorem C9_partition_sizing (l0tables l1tables : List (List KV)) :
    (l1tables = [] →
      ((mergeLevel0Tables l0tables).length / 4 = 0 →
        compactAndInsert l0tables [] = some [mergeLevel0Tables l0tables]) ∧
      (0 < (mergeLevel0Tables l0tables).length / 4 →
        ∀ outs, compactAndInsert l0tables [] = some outs →
          outs.flatten = mergeLevel0Tables l0tables ∧
          (∀ t ∈ outs, t ≠ [] ∧ t.length ≤ (mergeLevel0Tables l0tables).length / 4) ∧
          ∀ t ∈ outs.dropLast, t.length = (mergeLevel0Tables l0tables).length / 4))
    ∧ (l1tables ≠ [] →
      (0 < (mergeLevel0Tables l0tables).length + (l1tables.map List.length).sum →
        ((mergeLevel0Tables l0tables).length + (l1tables.map List.length).sum) / 4 = 0 →
        compactAndInsert l0tables l1tables = none) ∧
      (0 < ((mergeLevel0Tables l0tables).length + (l1tables.map List.length).sum) / 4 →
        ∀ outs, compactAndInsert l0tables l1tables = some outs →
          outs.flatten
            = emitStream (mergeLevel0Tables l0tables) l1tables.flatten ∧
          (∀ t ∈ outs, t ≠ [] ∧
            t.length
              ≤ ((mergeLevel0Tables l0tables).length
                  + (l1tables.map List.length).sum) / 4) ∧
          ∀ t ∈ outs.dropLast,
            t.length
              = ((mergeLevel0Tables l0tables).length
                  + (l1tables.map List.length).sum) / 4)) := by
  constructor
  · intro hl1
    constructor
    · intro hP
      rw [compactAndInsert_empty, compactEmptyL1_zero _ hP]
    · intro hP outs houts
      rw [compactAndInsert_empty, compactEmptyL1_pos _ hP] at houts
      have he : outs = finishTables
          ((mergeLevel0Tables l0tables).foldl
            (pushKV ((mergeLevel0Tables l0tables).length / 4)) ([], [])) :=
        (Option.some_injective _ houts).symm
      rw [he]
      exact finish_chunks _ hP _
  · intro hl1
    constructor
    · intro hkv hP
      rw [compactAndInsert_nonEmpty _ hl1]
      exact compactNonEmptyL1_panic _ _ hkv hP
    · intro hP outs houts
      rw [compactAndInsert_nonEmpty _ hl1, compactNonEmptyL1_pos _ _ hP] at houts
      have he := (Option.some_injective _ houts).symm
      rw [he, mergeFold_eq]
      exact finish_chunks _ hP _

/-- C9 witness: a single one-entry level-0 table with empty level-1 gives
`P = 0` and one output table; the two-level run with `P = 1` emits the
merged stream; one entry on each side with non-empty level-1 gives
`P = 0` and the modelled panic. -/
theorem C9_partition_sizing_witness :
    compactAndInsert [[(1, "a")]] [] = some [[(1, "a")]] ∧
    [[(1, "a")], [(2, "b")], [(3, "cc")]].flatten
      = emitStream (mergeLevel0Tables [[(1, "a"), (3, "c")], [(3, "cc")]])
          [[(2, "b"), (3, "old")]].flatten ∧
    compactAndInsert [[(1, "a")]] [[(2, "b")]] = none := by
  refine ⟨?_, ?_, ?_⟩
  · have h := ((C9_partition_sizing [[(1, "a")]] []).1 rfl).1 (by decide)
    simpa using h
  · exact (((C9_partition_sizing [[(1, "a"), (3, "c")], [(3, "cc")]]
      [[(2, "b"), (3, "old")]]).2 (by decide)).2 (by decide)
      [[(1, "a")], [(2, "b")], [(3, "cc")]] (by decide)).1
  · exact ((C9_partition_sizing [[(1, "a")]] [[(2, "b")]]).2 (by decide)).1
      (by decide) (by decide)

/-!
The SSTable index (src/src/sstable/index_block.rs).  A loaded index is a
vector of records `(block_offset, block_length, max_key_length, max_key)`
sorted ascending by max-key; keys are modelled by `Nat`.
-/

structure IndexRecord where
  offset : Nat
  length : Nat
  keyLen : Nat
  maxKey : Nat
deriving DecidableEq

/-- Rust `slice::binary_search_by` over the record max-keys: the
standard-library `left`/`right` halving loop, returning `(true, i)` for
`Ok(i)` — the probed element compared equal — and `(false, i)` for
`Err(i)` — the insertion index. -/
def bsGo (keys : List Nat) (target : Nat) (left right : Nat) : Bool × Nat :=
  if h : left < right then
    if keys.getD ((left + right) / 2) 0 < target then
      bsGo keys target ((left + right) / 2 + 1) right
    else if target < keys.getD ((left + right) / 2) 0 then
      bsGo keys target left ((left + right) / 2)
    else (true, (left + right) / 2)
  else (false, left)
termination_by right - left
decreasing_by
  all_goals omega

/-- `SSTableIndex::may_contain_key` / `binary_search`
(src lines 58-76): `Ok(i)` and `Err(i)` are handled identically — when
`i > 0` return the `(offset, length)` of the record at index `i` (when it
exists), and when `i = 0` return `None`. -/
def mayContainKey (indexes : List IndexRecord) (key : Nat) : Option (Nat × Nat) :=
  let r := bsGo (indexes.map (fun e => e.maxKey)) key 0 indexes.length
  if 0 < r.2 then
    match indexes.get? r.2 with
    | some e => some (e.offset, e.length)
    | none => none
  else none

/-- C5: evaluation at the failing inputs.  For an index with first block
`(offset 0, length 10, max-key 5)`, looking up key 3 (smaller than every
max-key, search index 0) returns `none` instead of the first block, and
looking up key 5 (an exact match at probe index 0) also returns `none`
instead of the probed block; a search index `i > 0` does return the block
at the insertion index as the claim describes. -/
theorem C5_index_lookup_at_zero :
    mayContainKey [⟨0, 10, 1, 5⟩] 3 = none ∧
    mayContainKey [⟨0, 10, 1, 5⟩] 5 = none ∧
    mayContainKey [⟨0, 10, 1, 5⟩, ⟨10, 10, 1, 9⟩] 7 = some (10, 10) ∧
    mayContainKey [⟨0, 10, 1, 5⟩, ⟨10, 10, 1, 9⟩] 9 = some (10, 10) := by
  refine ⟨?_, ?_, ?_, ?_⟩ <;>
    simp [mayContainKey, bsGo]

/-!
One shard of the sharded LRU cache (src/src/cache.rs): `CACHE_CAP = 256`.
The shard state is the recency list head-first (most recently used first,
the oldest last); every resident entry is simultaneously linked in the
hash table, so one list carries both.  Hash-chain order never matters for
these claims because `insert_no_exists` keeps (hash, key) pairs unique.
Reference counts are carried on the entries; `release` frees an entry
when its count reaches zero, which a list model needs no step for.
-/

structure CEntry where
  key : Nat
  hash : Nat
  val : Value
  refCount : Nat
deriving DecidableEq

def CACHE_CAP : Nat := 256

/-- `HashTable::look_up` via `find_ptr` (src lines 273-281 and 313-321):
the entry whose hash and key both match. -/
def tableLookup (st : List CEntry) (k h : Nat) : Option CEntry :=
  st.find? (fun e => decide (e.hash = h) && decide (e.key = k))

/-- `LRUCache::insert_no_exists` (src lines 128-144): when the key is
already present nothing happens at all (no recency refresh, no value
update); otherwise, when `len >= CACHE_CAP`, the tail (oldest) entry is
detached from the recency list and removed from its hash chain with its
reference count decremented by one, and then a fresh entry with reference
count 1 is attached at the head.  The second component reports the
post-decrement reference count of the evicted entry, when one was
evicted. -/
def insertNoExists (st : List CEntry) (k : Nat) (v : Value) (h : Nat) :
    List CEntry × Option Nat :=
  match tableLookup st k h with
  | some _ => (st, none)
  | none =>
    if CACHE_CAP ≤ st.length then
      (⟨k, h, v, 1⟩ :: st.dropLast, (st.getLast?).map (fun e => e.refCount - 1))
    else (⟨k, h, v, 1⟩ :: st, none)

/-- `LRUCache::look_up` (src lines 116-126): on a hit, detach the entry
and re-attach it at the head of the recency list, incrementing its
reference count; a miss changes nothing. -/
def lookUpOp (st : List CEntry) (k h : Nat) : List CEntry :=
  match tableLookup st k h with
  | none => st
  | some e => ⟨e.key, e.hash, e.val, e.refCount + 1⟩ :: st.erase e

/-- `LRUCache::erase` (src lines 146-155): when present, unlink from the
recency list and the hash chain, decrementing the reference count. -/
def eraseOp (st : List CEntry) (k h : Nat) : List CEntry × Option Nat :=
  match tableLookup st k h with
  | none => (st, none)
  | some e => (st.erase e, some (e.refCount - 1))

inductive CacheOp where
  | ins (k : Nat) (v : Value) (h : Nat)
  | look (k : Nat) (h : Nat)
  | erase (k : Nat) (h : Nat)

def applyCacheOp (st : List CEntry) : CacheOp → List CEntry
  | CacheOp.ins k v h => (insertNoExists st k v h).1
  | CacheOp.look k h => lookUpOp st k h
  | CacheOp.erase k h => (eraseOp st k h).1

def runCache (ops : List CacheOp) : List CEntry := ops.foldl applyCacheOp []

theorem applyCacheOp_length_le {st : List CEntry} (h : st.length ≤ CACHE_CAP)
    (op : CacheOp) : (applyCacheOp st op).length ≤ CACHE_CAP := by
  cases op with
  | ins k v hh =>
    simp only [applyCacheOp, insertNoExists]
    cases htl : tableLookup st k hh with
    | some e => exact h
    | none =>
      by_cases hcap : CACHE_CAP ≤ st.length
      · rw [if_pos hcap]
        simp only [List.length_cons, List.length_dropLast]
        have : 1 ≤ st.length := by
          have : (256 : Nat) ≤ st.length := hcap
          omega
        omega
      · rw [if_neg hcap]
        simp only [List.length_cons]
        omega
  | look k hh =>
    simp only [applyCacheOp, lookUpOp]
    cases htl : tableLookup st k hh with
    | none => exact h
    | some e =>
      have hmem : e ∈ st := List.mem_of_find?_eq_some htl
      simp only [List.length_cons, List.length_erase_of_mem hmem]
      have : 1 ≤ st.length := List.length_pos.mpr (List.ne_nil_of_mem hmem)
      omega
  | erase k hh =>
    simp only [applyCacheOp, eraseOp]
    cases htl : tableLookup st k hh with
    | none => exact h
    | some e =>
      exact le_trans (List.length_erase_le e st) h

theorem runCache_length_aux (ops : List CacheOp) :
    ∀ st : List CEntry, st.length ≤ CACHE_CAP →
      (ops.foldl applyCacheOp st).length ≤ CACHE_CAP := by
  induction ops with
  | nil => intro st h; exact h
  | cons op rest ih =>
    intro st h
    exact ih _ (applyCacheOp_length_le h op)

/-- C8: `insert_no_exists` on a shard leaves the state completely
unchanged when the (hash, key) pair is already present — no recency
refresh and no value update; when it is absent and the shard holds
`CACHE_CAP` entries, the tail (oldest) entry is detached and removed from
the hash table with its reference count decremented by one, and the fresh
entry with reference count 1 is attached at the head, so the length stays
`CACHE_CAP`; and under every operation sequence started from an empty
shard the length never exceeds `CACHE_CAP = 256`. -/
theorem C8_lru_cap_invariant (st : List CEntry) (k : Nat) (v : Value) (h : Nat) :
    ((tableLookup st k h).isSome → insertNoExists st k v h = (st, none))
    ∧ (tableLookup st k h = none → st.length = CACHE_CAP →
        (insertNoExists st k v h).1 = ⟨k, h, v, 1⟩ :: st.dropLast ∧
        (insertNoExists st k v h).1.length = CACHE_CAP ∧
        (insertNoExists st k v h).2 = (st.getLast?).map (fun e => e.refCount - 1))
    ∧ (∀ ops : List CacheOp, (runCache ops).length ≤ CACHE_CAP) := by
  refine ⟨?_, ?_, ?_⟩
  · intro hsome
    cases htl : tableLookup st k h with
    | none => rw [htl] at hsome; cases hsome
    | some e => simp [insertNoExists, htl]
  · intro hnone hlen
    have hcap : CACHE_CAP ≤ st.length := le_of_eq hlen.symm
    refine ⟨?_, ?_, ?_⟩
    · simp [insertNoExists, hnone, hcap]
    · simp only [insertNoExists, hnone, if_pos hcap]
      simp only [List.length_cons, List.length_dropLast]
      have hpos : 1 ≤ st.length := by
        rw [hlen]
        norm_num [CACHE_CAP]
      omega
    · simp [insertNoExists, hnone, hcap]
  · intro ops
    exact runCache_length_aux ops [] (by simp [CACHE_CAP])

set_option maxRecDepth 16384 in
/-- C8 witness: inserting an existing (hash, key) pair changes nothing; a
full shard of 256 entries stays at 256 after inserting a fresh key; a
small concrete operation sequence respects the cap. -/
theorem C8_lru_cap_invariant_witness :
    insertNoExists [⟨1, 2, "a", 1⟩] 1 "b" 2 = ([⟨1, 2, "a", 1⟩], none) ∧
    (insertNoExists ((List.range 256).map (fun i => ⟨i, i, "v", 1⟩)) 999 "w" 7).1.length
      = CACHE_CAP ∧
    (runCache [CacheOp.ins 1 "a" 2, CacheOp.ins 1 "b" 2, CacheOp.look 1 2]).length
      ≤ CACHE_CAP := by
  refine ⟨?_, ?_, ?_⟩
  · exact (C8_lru_cap_invariant [⟨1, 2, "a", 1⟩] 1 "b" 2).1 (by decide)
  · exact ((C8_lru_cap_invariant ((List.range 256).map (fun i => ⟨i, i, "v", 1⟩))
      999 "w" 7).2.1 (by decide) (by decide)).2.1
  · exact (C8_lru_cap_invariant [] 0 "" 0).2.2
      [CacheOp.ins 1 "a" 2, CacheOp.ins 1 "b" 2, CacheOp.look 1 2]

/-!
The MVCC transaction layer (src/src/db/transaction/write_committed.rs).
`LSNKey`, `NoTransactionDB` and the WAL are not under src/ (only this
caller is); their read rule is modelled from the spec.  `u64` counters
are `Nat` with explicit wrap-around where `fetch_sub` can underflow.
The WAL append (a pure side effect for these claims) and the flush of a
frozen memtable (rotation to an immutable table that stays queryable)
change no visible key-value state and are not modelled beyond the ghost
freeze log.
-/

def U64_MOD : Nat := 2 ^ 64

/-- `AtomicU64::fetch_sub(1, ...)`: wrapping decrement. -/
def wrapDec (n : Nat) : Nat := if n = 0 then U64_MOD - 1 else n - 1

/-- A memtable entry: `(user key, (lsn, value))`, the flattening of
`LSNKey<UK> -> Value`. -/
abbrev MEntry := Nat × Nat × Value

/-- One step of the descending scan underneath `mvccGet`: keep the entry
with the probed user key, sequence ≤ the probe, and the greatest such
sequence seen so far. -/
def mvccStep (uk s : Nat) (acc : Option (Nat × Value)) (e : MEntry) : Option (Nat × Value) :=
  if e.1 = uk ∧ e.2.1 ≤ s then
    match acc with
    | none => some e.2
    | some a => if a.1 < e.2.1 then some e.2 else some a
  else acc

/-- Modelled from the spec: `NoTransactionDB::get` on an `LSNKey` probe
`(uk, s)` — `key_types.rs` and `no_transaction_db.rs` are not under
src/.  Spec §3/§4.5/§4.6: versioned keys are ordered user-key ascending
then sequence descending, and `find_first_ge` returns the entry with the
probed user key and the greatest sequence ≤ `s`, or nothing when only
other user keys qualify. -/
def mvccGet (mem : List MEntry) (uk s : Nat) : Option (Nat × Value) :=
  mem.foldl (mvccStep uk s) none

theorem mvccGet_ignores (mem : List MEntry) (uk s : Nat)
    (p : MEntry → Bool) (hp : ∀ e ∈ mem, e.1 = uk → e.2.1 ≤ s → p e = true) :
    mvccGet mem uk s = mvccGet (mem.filter p) uk s := by
  rw [mvccGet, mvccGet]
  generalize (none : Option (Nat × Value)) = acc
  induction mem generalizing acc with
  | nil => simp
  | cons e rest ih =>
    by_cases hrel : e.1 = uk ∧ e.2.1 ≤ s
    · have hpe : p e = true := hp e (List.mem_cons_self e rest) hrel.1 hrel.2
      rw [List.filter_cons_of_pos hpe, List.foldl_cons, List.foldl_cons]
      exact ih (fun x hx => hp x (List.mem_cons.mpr (Or.inr hx))) _
    · have hstep : mvccStep uk s acc e = acc := by
        rw [mvccStep.eq_def, if_neg hrel]
      by_cases hpe : p e = true
      · rw [List.filter_cons_of_pos hpe, List.foldl_cons, List.foldl_cons, hstep]
        exact ih (fun x hx => hp x (List.mem_cons.mpr (Or.inr hx))) _
      · rw [List.filter_cons_of_neg (by simpa using hpe), List.foldl_cons, hstep]
        exact ih (fun x hx => hp x (List.mem_cons.mpr (Or.inr hx))) _

theorem mvccGet_max (mem : List MEntry) (k s lsn : Nat) (v : Value)
    (hmem : (k, (lsn, v)) ∈ mem) (hle : lsn ≤ s)
    (hmax : ∀ e ∈ mem, e.1 = k → e.2.1 ≤ s → e.2.1 ≤ lsn)
    (huniq : ∀ w, (k, (lsn, w)) ∈ mem → w = v) :
    mvccGet mem k s = some (lsn, v) := by
  rw [mvccGet]
  have haux : ∀ (l : List MEntry) (acc : Option (Nat × Value)),
      (∀ e ∈ l, e.1 = k → e.2.1 ≤ s → e.2.1 ≤ lsn) →
      (∀ w, (k, (lsn, w)) ∈ l → w = v) →
      (∀ a, acc = some a → a.1 ≤ lsn ∧ (a.1 = lsn → a = (lsn, v))) →
      ((k, (lsn, v)) ∈ l ∨ acc = some (lsn, v)) →
      l.foldl (mvccStep k s) acc = some (lsn, v) := by
    intro l
    induction l with
    | nil =>
      intro acc _ _ _ hin
      rcases hin with h | h
      · cases h
      · simpa using h
    | cons e rest ih =>
      obtain ⟨e1, e2, e3⟩ := e
      intro acc hmax' huniq' hacc hin
      rw [List.foldl_cons]
      have hmaxr : ∀ x ∈ rest, x.1 = k → x.2.1 ≤ s → x.2.1 ≤ lsn :=
        fun x hx => hmax' x (List.mem_cons.mpr (Or.inr hx))
      have huniqr : ∀ w, (k, (lsn, w)) ∈ rest → w = v :=
        fun w hw => huniq' w (List.mem_cons.mpr (Or.inr hw))
      by_cases hrel : e1 = k ∧ e2 ≤ s
      · have helsn : e2 ≤ lsn := by
          have := hmax' (e1, e2, e3) (List.mem_cons_self _ _) hrel.1 hrel.2
          simpa using this
        have hheadv : e2 = lsn → e3 = v := by
          intro h2
          refine huniq' e3 ?_
          rw [← hrel.1, ← h2]
          exact List.mem_cons_self _ _
        cases hc : acc with
        | none =>
          have hstep : mvccStep k s none (e1, e2, e3) = some (e2, e3) := by
            rw [mvccStep.eq_def, if_pos (by simpa using hrel)]
          rw [hstep]
          refine ih (some (e2, e3)) hmaxr huniqr ?_ ?_
          · intro a ha
            have ha' : a = (e2, e3) := by
              injection ha with h'
              exact h'.symm
            rw [ha']
            refine ⟨helsn, ?_⟩
            intro h2
            have h3 := hheadv h2
            exact Prod.ext h2 h3
          · rcases hin with h | h
            · rcases List.mem_cons.mp h with h' | h'
              · right
                have h2 : e2 = lsn := by
                  have := congrArg (fun x : MEntry => x.2.1) h'
                  simpa using this.symm
                have h3 : e3 = v := hheadv h2
                rw [h2, h3]
              · exact Or.inl h'
            · rw [hc] at h
              cases h
        | some b =>
          obtain ⟨hble, hbeq⟩ := hacc b hc
          by_cases hb : b.1 < e2
          · have hstep : mvccStep k s (some b) (e1, e2, e3) = some (e2, e3) := by
              rw [mvccStep.eq_def, if_pos (by simpa using hrel)]
              simp only [if_pos hb]
            rw [hstep]
            refine ih (some (e2, e3)) hmaxr huniqr ?_ ?_
            · intro a ha
              have ha' : a = (e2, e3) := by
                injection ha with h'
                exact h'.symm
              rw [ha']
              refine ⟨helsn, ?_⟩
              intro h2
              have h3 := hheadv h2
              exact Prod.ext h2 h3
            · rcases hin with h | h
              · rcases List.mem_cons.mp h with h' | h'
                · right
                  have h2 : e2 = lsn := by
                    have := congrArg (fun x : MEntry => x.2.1) h'
                    simpa using this.symm
                  have h3 : e3 = v := hheadv h2
                  rw [h2, h3]
                · exact Or.inl h'
              · exfalso
                rw [hc] at h
                injection h with h'
                rw [h'] at hb
                simp only at hb
                omega
          · have hstep : mvccStep k s (some b) (e1, e2, e3) = some b := by
              rw [mvccStep.eq_def, if_pos (by simpa using hrel)]
              simp only [if_neg hb]
            rw [hstep]
            refine ih (some b) hmaxr huniqr (fun a ha => hacc a (hc ▸ ha)) ?_
            rcases hin with h | h
            · rcases List.mem_cons.mp h with h' | h'
              · right
                have h2 : e2 = lsn := by
                  have := congrArg (fun x : MEntry => x.2.1) h'
                  simpa using this.symm
                have hblsn : b.1 = lsn := by
                  simp only at hb
                  omega
                rw [hbeq hblsn]
              · exact Or.inl h'
            · right
              rw [hc] at h
              exact h
      · have hstep : mvccStep k s acc (e1, e2, e3) = acc := by
          rw [mvccStep.eq_def, if_neg (by simpa using hrel)]
        rw [hstep]
        refine ih acc hmaxr huniqr hacc ?_
        rcases hin with h | h
        · rcases List.mem_cons.mp h with h' | h'
          · exfalso
            have h1 : e1 = k := by
              have := congrArg (fun x : MEntry => x.1) h'
              simpa using this.symm
            have h2 : e2 = lsn := by
              have := congrArg (fun x : MEntry => x.2.1) h'
              simpa using this.symm
            exact hrel ⟨h1, by omega⟩
          · exact Or.inl h'
        · exact Or.inr h
  exact haux mem none hmax huniq (by intro a ha; cases ha) (Or.inl hmem)

/-- A write-batch: its LSN and its private buffer of user-key → value
bindings (all buffer keys carry the batch's own LSN, so the buffer is
keyed by user key). -/
abbrev Batch := Nat × List (Nat × Value)

/-- The `WriteCommittedDB` state plus the live transaction objects and
two ghost fields (`committed`, `frozeLog`) recording history. -/
structure TxnState where
  nextLsn : Nat
  numLsnAcquired : Nat
  mem : List MEntry
  snaps : List Nat
  openBatches : List Batch
  committed : List Batch
  frozeLog : List Nat

/-- `WriteCommittedDB::open` (src lines 148-155): `next_lsn = 1`,
`num_lsn_acquired = 0`, empty memtable, no live objects. -/
def initTxn : TxnState := ⟨1, 0, [], [], [], [], []⟩

/-- API events of the transaction layer. -/
inductive TxnEv where
  | snap
  | beginTxn
  | txnSet (lsn k : Nat) (v : Value)
  | txnRemove (lsn k : Nat)
  | dropTxn (lsn : Nat)
  | dropSnap (lsn : Nat)

/-- One step of the transaction layer, faithful to
src/src/db/transaction/write_committed.rs; `thr` is the freeze threshold
of `should_freeze` (modelled from the spec: "the memtable length passes
the freeze threshold", `no_transaction_db.rs` is not under src/).

* `snap` / `beginTxn` (src lines 192-205): take a fresh LSN with
  `next_lsn.fetch_add(1)`.  The code does NOT touch `num_lsn_acquired`
  here, although both `Drop` impls decrement it.
* `txnSet` / `txnRemove` (src lines 84-94): insert into the private
  buffer (`remove` stores the empty value).
* `dropTxn` (src lines 108-115, 207-228): with a non-empty buffer, run
  `write_batch` — append the buffer to the memtable under the batch's
  LSN, then `may_freeze` (the freeze fires when the *pre-decrement*
  `num_lsn_acquired` is 0 and the memtable length reaches `thr`; the
  rotation keeps the entries queryable, so only the ghost log records
  it) — and afterwards `fetch_sub(1)` the counter (wrapping).
* `dropSnap` (src lines 46-48): `fetch_sub(1)` only. -/
def stepTxn (thr : Nat) (st : TxnState) : TxnEv → TxnState
  | TxnEv.snap =>
    { st with snaps := st.nextLsn :: st.snaps, nextLsn := st.nextLsn + 1 }
  | TxnEv.beginTxn =>
    { st with openBatches := (st.nextLsn, []) :: st.openBatches,
              nextLsn := st.nextLsn + 1 }
  | TxnEv.txnSet l k v =>
    { st with openBatches :=
        (st.openBatches.map
          (fun b => if b.1 = l then (b.1, SkipMap.insert b.2 k v) else b)) }
  | TxnEv.txnRemove l k =>
    { st with openBatches :=
        (st.openBatches.map
          (fun b => if b.1 = l then (b.1, SkipMap.insert b.2 k emptyValue) else b)) }
  | TxnEv.dropTxn l =>
    match st.openBatches.find? (fun b => decide (b.1 = l)) with
    | none => st
    | some b =>
      let rest := st.openBatches.filter (fun b2 => !decide (b2.1 = l))
      if b.2.isEmpty then
        { st with openBatches := rest,
                  numLsnAcquired := wrapDec st.numLsnAcquired }
      else
        let mem2 := st.mem ++ b.2.map (fun kv => (kv.1, (b.1, kv.2)))
        { st with mem := mem2, openBatches := rest,
                  committed := b :: st.committed,
                  frozeLog :=
                    (if st.numLsnAcquired = 0 ∧ thr ≤ mem2.length
                     then b.1 :: st.frozeLog else st.frozeLog),
                  numLsnAcquired := wrapDec st.numLsnAcquired }
  | TxnEv.dropSnap l =>
    if l ∈ st.snaps then
      { st with snaps := st.snaps.erase l,
                numLsnAcquired := wrapDec st.numLsnAcquired }
    else st

def runTxn (thr : Nat) (evs : List TxnEv) : TxnState :=
  evs.foldl (stepTxn thr) initTxn

theorem SkipMap.mem_iff_get {l : List (Nat × Value)} (h : SkipMap.Sorted l)
    (k : Nat) (v : Value) : (k, v) ∈ l ↔ SkipMap.get? l k = some v := by
  induction l with
  | nil => simp [SkipMap.get?, SkipMap.findFirstGe]
  | cons e t ih =>
    rw [SkipMap.Sorted, List.pairwise_cons] at h
    obtain ⟨he, ht⟩ := h
    by_cases hek : e.1 = k
    · have hget : SkipMap.get? (e :: t) k = some e.2 := by
        have hle : k ≤ e.1 := le_of_eq hek.symm
        simp [SkipMap.get?, SkipMap.findFirstGe, List.find?, hle, hek]
      rw [hget]
      constructor
      · intro hmem
        rcases List.mem_cons.mp hmem with h' | h'
        · have := congrArg Prod.snd h'
          simp only at this
          rw [this]
        · exfalso
          have hgt := he (k, v) h'
          simp only at hgt
          omega
      · intro hg
        have hv : v = e.2 := by
          injection hg with h'
          exact h'.symm
        exact List.mem_cons.mpr (Or.inl (Prod.ext hek.symm hv))
    · by_cases hlt : k < e.1
      · have hget : SkipMap.get? (e :: t) k = none := by
          have hle : k ≤ e.1 := le_of_lt hlt
          simp [SkipMap.get?, SkipMap.findFirstGe, List.find?, hle, hek]
        rw [hget]
        refine iff_of_false ?_ (by simp)
        intro hmem
        rcases List.mem_cons.mp hmem with h' | h'
        · have := congrArg Prod.fst h'
          simp only at this
          exact hek (this ▸ rfl)
        · have hgt := he (k, v) h'
          simp only at hgt
          omega
      · have hget : SkipMap.get? (e :: t) k = SkipMap.get? t k := by
          have hn : ¬ k ≤ e.1 := by omega
          simp [SkipMap.get?, SkipMap.findFirstGe, List.find?, hn]
        rw [hget, ← ih ht]
        constructor
        · intro hmem
          rcases List.mem_cons.mp hmem with h' | h'
          · exfalso
            have := congrArg Prod.fst h'
            simp only at this
            exact hek (this ▸ rfl)
          · exact h'
        · intro hmem
          exact List.mem_cons.mpr (Or.inr hmem)

/-- Invariants of the transaction layer tied together by the global
sequencer: every live or recorded LSN is below `next_lsn`, snapshot LSNs
never coincide with batch LSNs, batch LSNs never repeat, buffers are
sorted unique maps, and the memtable holds exactly the committed
buffers' bindings under their batches' LSNs. -/
structure TxnInv (st : TxnState) : Prop where
  snapLt : ∀ l ∈ st.snaps, l < st.nextLsn
  openLt : ∀ b ∈ st.openBatches, b.1 < st.nextLsn
  commLt : ∀ b ∈ st.committed, b.1 < st.nextLsn
  memLt : ∀ e ∈ st.mem, e.2.1 < st.nextLsn
  snapNeOpen : ∀ l ∈ st.snaps, ∀ b ∈ st.openBatches, l ≠ b.1
  snapNeComm : ∀ l ∈ st.snaps, ∀ b ∈ st.committed, l ≠ b.1
  openNeComm : ∀ b ∈ st.openBatches, ∀ c ∈ st.committed, b.1 ≠ c.1
  memNeOpen : ∀ e ∈ st.mem, ∀ b ∈ st.openBatches, e.2.1 ≠ b.1
  openSorted : ∀ b ∈ st.openBatches, SkipMap.Sorted b.2
  commMem : ∀ b ∈ st.committed, ∀ k v,
    ((k, (b.1, v)) ∈ st.mem ↔ SkipMap.get? b.2 k = some v)

theorem txnInv_init : TxnInv initTxn := by
  refine ⟨?_, ?_, ?_, ?_, ?_, ?_, ?_, ?_, ?_, ?_⟩ <;> simp [initTxn]

theorem txnInv_step (thr : Nat) {st : TxnState} (inv : TxnInv st) (ev : TxnEv) :
    TxnInv (stepTxn thr st ev) := by
  cases ev with
  | snap =>
    refine ⟨?_, ?_, ?_, ?_, ?_, ?_, ?_, ?_, ?_, ?_⟩ <;>
      simp only [stepTxn]
    · intro l hl
      rcases List.mem_cons.mp hl with h' | h'
      · omega
      · have := inv.snapLt l h'
        omega
    · intro b hb
      have := inv.openLt b hb
      omega
    · intro b hb
      have := inv.commLt b hb
      omega
    · intro e he
      have := inv.memLt e he
      omega
    · intro l hl b hb
      rcases List.mem_cons.mp hl with h' | h'
      · have := inv.openLt b hb
        omega
      · exact inv.snapNeOpen l h' b hb
    · intro l hl b hb
      rcases List.mem_cons.mp hl with h' | h'
      · have := inv.commLt b hb
        omega
      · exact inv.snapNeComm l h' b hb
    · exact inv.openNeComm
    · exact inv.memNeOpen
    · exact inv.openSorted
    · exact inv.commMem
  | beginTxn =>
    refine ⟨?_, ?_, ?_, ?_, ?_, ?_, ?_, ?_, ?_, ?_⟩ <;>
      simp only [stepTxn]
    · intro l hl
      have := inv.snapLt l hl
      omega
    · intro b hb
      rcases List.mem_cons.mp hb with h' | h'
      · rw [h']
        omega
      · have := inv.openLt b h'
        omega
    · intro b hb
      have := inv.commLt b hb
      omega
    · intro e he
      have := inv.memLt e he
      omega
    · intro l hl b hb
      rcases List.mem_cons.mp hb with h' | h'
      · have := inv.snapLt l hl
        rw [h']
        omega
      · exact inv.snapNeOpen l hl b h'
    · exact inv.snapNeComm
    · intro b hb c hc
      rcases List.mem_cons.mp hb with h' | h'
      · have := inv.commLt c hc
        rw [h']
        omega
      · exact inv.openNeComm b h' c hc
    · intro e he b hb
      rcases List.mem_cons.mp hb with h' | h'
      · have := inv.memLt e he
        rw [h']
        omega
      · exact inv.memNeOpen e he b h'
    · intro b hb
      rcases List.mem_cons.mp hb with h' | h'
      · rw [h']
        exact SkipMap.sorted_nil
      · exact inv.openSorted b h'
    · exact inv.commMem
  | txnSet l k v =>
    refine ⟨?_, ?_, ?_, ?_, ?_, ?_, ?_, ?_, ?_, ?_⟩ <;>
      simp only [stepTxn]
    · exact inv.snapLt
    · intro b hb
      obtain ⟨b0, hb0, hfb⟩ := List.mem_map.mp hb
      have h1 : b.1 = b0.1 := by
        rw [← hfb]
        by_cases h' : b0.1 = l <;> simp [h']
      rw [h1]
      exact inv.openLt b0 hb0
    · exact inv.commLt
    · exact inv.memLt
    · intro l2 hl2 b hb
      obtain ⟨b0, hb0, hfb⟩ := List.mem_map.mp hb
      have h1 : b.1 = b0.1 := by
        rw [← hfb]
        by_cases h' : b0.1 = l <;> simp [h']
      rw [h1]
      exact inv.snapNeOpen l2 hl2 b0 hb0
    · exact inv.snapNeComm
    · intro b hb c hc
      obtain ⟨b0, hb0, hfb⟩ := List.mem_map.mp hb
      have h1 : b.1 = b0.1 := by
        rw [← hfb]
        by_cases h' : b0.1 = l <;> simp [h']
      rw [h1]
      exact inv.openNeComm b0 hb0 c hc
    · intro e he b hb
      obtain ⟨b0, hb0, hfb⟩ := List.mem_map.mp hb
      have h1 : b.1 = b0.1 := by
        rw [← hfb]
        by_cases h' : b0.1 = l <;> simp [h']
      rw [h1]
      exact inv.memNeOpen e he b0 hb0
    · intro b hb
      obtain ⟨b0, hb0, hfb⟩ := List.mem_map.mp hb
      rw [← hfb]
      by_cases h' : b0.1 = l
      · simp only [h', if_pos rfl]
        exact SkipMap.sorted_insert (inv.openSorted b0 hb0) k v
      · simp only [if_neg h']
        exact inv.openSorted b0 hb0
    · exact inv.commMem
  | txnRemove l k =>
    refine ⟨?_, ?_, ?_, ?_, ?_, ?_, ?_, ?_, ?_, ?_⟩ <;>
      simp only [stepTxn]
    · exact inv.snapLt
    · intro b hb
      obtain ⟨b0, hb0, hfb⟩ := List.mem_map.mp hb
      have h1 : b.1 = b0.1 := by
        rw [← hfb]
        by_cases h' : b0.1 = l <;> simp [h']
      rw [h1]
      exact inv.openLt b0 hb0
    · exact inv.commLt
    · exact inv.memLt
    · intro l2 hl2 b hb
      obtain ⟨b0, hb0, hfb⟩ := List.mem_map.mp hb
      have h1 : b.1 = b0.1 := by
        rw [← hfb]
        by_cases h' : b0.1 = l <;> simp [h']
      rw [h1]
      exact inv.snapNeOpen l2 hl2 b0 hb0
    · exact inv.snapNeComm
    · intro b hb c hc
      obtain ⟨b0, hb0, hfb⟩ := List.mem_map.mp hb
      have h1 : b.1 = b0.1 := by
        rw [← hfb]
        by_cases h' : b0.1 = l <;> simp [h']
      rw [h1]
      exact inv.openNeComm b0 hb0 c hc
    · intro e he b hb
      obtain ⟨b0, hb0, hfb⟩ := List.mem_map.mp hb
      have h1 : b.1 = b0.1 := by
        rw [← hfb]
        by_cases h' : b0.1 = l <;> simp [h']
      rw [h1]
      exact inv.memNeOpen e he b0 hb0
    · intro b hb
      obtain ⟨b0, hb0, hfb⟩ := List.mem_map.mp hb
      rw [← hfb]
      by_cases h' : b0.1 = l
      · simp only [h', if_pos rfl]
        exact SkipMap.sorted_insert (inv.openSorted b0 hb0) k emptyValue
      · simp only [if_neg h']
        exact inv.openSorted b0 hb0
    · exact inv.commMem
  | dropSnap l =>
    simp only [stepTxn]
    by_cases hmem : l ∈ st.snaps
    · rw [if_pos hmem]
      refine ⟨?_, ?_, ?_, ?_, ?_, ?_, ?_, ?_, ?_, ?_⟩
      · intro l2 hl2
        exact inv.snapLt l2 (List.mem_of_mem_erase hl2)
      · exact inv.openLt
      · exact inv.commLt
      · exact inv.memLt
      · intro l2 hl2 b hb
        exact inv.snapNeOpen l2 (List.mem_of_mem_erase hl2) b hb
      · intro l2 hl2 b hb
        exact inv.snapNeComm l2 (List.mem_of_mem_erase hl2) b hb
      · exact inv.openNeComm
      · exact inv.memNeOpen
      · exact inv.openSorted
      · exact inv.commMem
    · rw [if_neg hmem]
      exact inv
  | dropTxn l =>
    simp only [stepTxn]
    cases hfind : st.openBatches.find? (fun b => decide (b.1 = l)) with
    | none => exact inv
    | some b =>
      have hbmem : b ∈ st.openBatches := List.mem_of_find?_eq_some hfind
      have hbl : b.1 = l := by
        have := List.find?_some hfind
        simpa using this
      have hrest : ∀ x, x ∈ st.openBatches.filter (fun b2 => !decide (b2.1 = l)) →
          x ∈ st.openBatches ∧ x.1 ≠ l := by
        intro x hx
        have := List.mem_filter.mp hx
        refine ⟨this.1, ?_⟩
        simpa using this.2
      by_cases hemp : b.2.isEmpty
      · simp only [hemp, if_true]
        refine ⟨?_, ?_, ?_, ?_, ?_, ?_, ?_, ?_, ?_, ?_⟩
        · exact inv.snapLt
        · intro x hx
          exact inv.openLt x (hrest x hx).1
        · exact inv.commLt
        · exact inv.memLt
        · intro l2 hl2 x hx
          exact inv.snapNeOpen l2 hl2 x (hrest x hx).1
        · exact inv.snapNeComm
        · intro x hx c hc
          exact inv.openNeComm x (hrest x hx).1 c hc
        · intro e he x hx
          exact inv.memNeOpen e he x (hrest x hx).1
        · intro x hx
          exact inv.openSorted x (hrest x hx).1
        · exact inv.commMem
      · simp only [hemp, if_false, Bool.false_eq_true]
        have hnewmem : ∀ x : MEntry,
            x ∈ b.2.map (fun kv => (kv.1, (b.1, kv.2))) → x.2.1 = b.1 := by
          intro x hx
          obtain ⟨kv, _, hkv⟩ := List.mem_map.mp hx
          rw [← hkv]
        refine ⟨?_, ?_, ?_, ?_, ?_, ?_, ?_, ?_, ?_, ?_⟩
        · exact inv.snapLt
        · intro x hx
          exact inv.openLt x (hrest x hx).1
        · intro c hc
          rcases List.mem_cons.mp hc with h' | h'
          · rw [h']
            exact inv.openLt b hbmem
          · exact inv.commLt c h'
        · intro e he
          rcases List.mem_append.mp he with h' | h'
          · exact inv.memLt e h'
          · rw [hnewmem e h']
            exact inv.openLt b hbmem
        · intro l2 hl2 x hx
          exact inv.snapNeOpen l2 hl2 x (hrest x hx).1
        · intro l2 hl2 c hc
          rcases List.mem_cons.mp hc with h' | h'
          · rw [h']
            exact inv.snapNeOpen l2 hl2 b hbmem
          · exact inv.snapNeComm l2 hl2 c h'
        · intro x hx c hc
          rcases List.mem_cons.mp hc with h' | h'
          · rw [h', hbl]
            exact (hrest x hx).2
          · exact inv.openNeComm x (hrest x hx).1 c h'
        · intro e he x hx
          rcases List.mem_append.mp he with h' | h'
          · exact inv.memNeOpen e h' x (hrest x hx).1
          · rw [hnewmem e h', hbl]
            exact fun hcon => (hrest x hx).2 hcon.symm
        · intro x hx
          exact inv.openSorted x (hrest x hx).1
        · intro c hc k v
          rcases List.mem_cons.mp hc with h' | h'
          · subst h'
            constructor
            · intro hmem
              rcases List.mem_append.mp hmem with h2 | h2
              · exfalso
                exact inv.memNeOpen (k, (c.1, v)) h2 c hbmem rfl
              · obtain ⟨kv, hkv, hkveq⟩ := List.mem_map.mp h2
                have h3 : kv.1 = k := by
                  have := congrArg Prod.fst hkveq
                  simpa using this
                have h4 : kv.2 = v := by
                  have := congrArg (fun x : MEntry => x.2.2) hkveq
                  simpa using this
                rw [← (SkipMap.mem_iff_get (inv.openSorted c hbmem) k v)]
                rw [← h3, ← h4]
                exact hkv
            · intro hget
              refine List.mem_append.mpr (Or.inr ?_)
              have hmem2 : (k, v) ∈ c.2 :=
                (SkipMap.mem_iff_get (inv.openSorted c hbmem) k v).mpr hget
              refine List.mem_map.mpr ⟨(k, v), hmem2, rfl⟩
          · have hne : c.1 ≠ b.1 := fun hcon =>
              inv.openNeComm b hbmem c h' hcon.symm
            constructor
            · intro hmem
              rcases List.mem_append.mp hmem with h2 | h2
              · exact (inv.commMem c h' k v).mp h2
              · exfalso
                have := hnewmem (k, (c.1, v)) h2
                simp only at this
                exact hne this
            · intro hget
              exact List.mem_append.mpr
                (Or.inl ((inv.commMem c h' k v).mpr hget))

theorem txnInv_run (thr : Nat) (evs : List TxnEv) : TxnInv (runTxn thr evs) := by
  rw [runTxn]
  have haux : ∀ (l : List TxnEv) (st : TxnState), TxnInv st →
      TxnInv (l.foldl (stepTxn thr) st) := by
    intro l
    induction l with
    | nil => intro st h; exact h
    | cons ev rest ih =>
      intro st h
      exact ih _ (txnInv_step thr h ev)
  exact haux evs initTxn txnInv_init

/-- C1: in every reachable state of the transaction layer, for every
committed write-batch with sequence number `s` and buffer `B`, every live
snapshot with sequence number `sp`, and every key `k` the batch wrote
with final buffered value `v`: when `sp > s` and every other committed
write to `k` has sequence ≤ `s` or > `sp`, the snapshot's get returns the
batch's value under the batch's sequence number; and when `sp ≤ s` the
snapshot's get sees none of the batch's writes — it equals the get over
the memtable with the batch's entries (sequence `s`) removed, i.e. the
pre-batch view of the key (`none` when the key was unset before the
batch).  The global sequencer hands distinct LSNs to snapshots and to
batches, which is why `sp = s` needs no separate case. -/
theorem C1_snapshot_isolation (thr : Nat) (evs : List TxnEv) (s sp k : Nat)
    (B : List (Nat × Value)) (v : Value)
    (hB : (s, B) ∈ (runTxn thr evs).committed)
    (hs : sp ∈ (runTxn thr evs).snaps)
    (hv : SkipMap.get? B k = some v) :
    (s < sp →
      (∀ e ∈ (runTxn thr evs).mem, e.1 = k → (e.2.1 ≤ s ∨ sp < e.2.1)) →
      mvccGet (runTxn thr evs).mem k sp = some (s, v))
    ∧ (sp ≤ s →
      mvccGet (runTxn thr evs).mem k sp
        = mvccGet ((runTxn thr evs).mem.filter (fun e => !decide (e.2.1 = s))) k sp) := by
  have inv := txnInv_run thr evs
  constructor
  · intro hlt hf
    have hmem : (k, (s, v)) ∈ (runTxn thr evs).mem :=
      (inv.commMem (s, B) hB k v).mpr hv
    refine mvccGet_max _ k sp s v hmem (le_of_lt hlt) ?_ ?_
    · intro e he h1 h2
      rcases hf e he h1 with h' | h'
      · exact h'
      · omega
    · intro w hw
      have := (inv.commMem (s, B) hB k w).mp hw
      rw [hv] at this
      injection this with h'
      exact h'.symm
  · intro hle
    have hne : sp ≠ s := inv.snapNeComm sp hs (s, B) hB
    have hlt : sp < s := lt_of_le_of_ne hle hne
    refine mvccGet_ignores _ k sp _ ?_
    intro e _ _ h2
    simp only [Bool.not_eq_true']
    simp only [decide_eq_false_iff_not]
    omega

/-- C1 witness: on the trace snapshot(1), batch(2) writes key 5, commit,
snapshot(3): the later snapshot (LSN 3 > 2) reads the batch's value, and
the earlier snapshot (LSN 1 ≤ 2) reads the pre-batch view (here empty). -/
theorem C1_snapshot_isolation_witness :
    mvccGet (runTxn 10 [TxnEv.snap, TxnEv.beginTxn, TxnEv.txnSet 2 5 "val",
      TxnEv.dropTxn 2, TxnEv.snap]).mem 5 3 = some (2, "val") ∧
    mvccGet (runTxn 10 [TxnEv.snap, TxnEv.beginTxn, TxnEv.txnSet 2 5 "val",
      TxnEv.dropTxn 2, TxnEv.snap]).mem 5 1
      = mvccGet ((runTxn 10 [TxnEv.snap, TxnEv.beginTxn, TxnEv.txnSet 2 5 "val",
          TxnEv.dropTxn 2, TxnEv.snap]).mem.filter
            (fun e => !decide (e.2.1 = 2))) 5 1 := by
  constructor
  · exact (C1_snapshot_isolation 10
      [TxnEv.snap, TxnEv.beginTxn, TxnEv.txnSet 2 5 "val", TxnEv.dropTxn 2, TxnEv.snap]
      2 3 5 [(5, "val")] "val" (by decide) (by decide) (by decide)).1
      (by decide) (by decide)
  · exact (C1_snapshot_isolation 10
      [TxnEv.snap, TxnEv.beginTxn, TxnEv.txnSet 2 5 "val", TxnEv.dropTxn 2, TxnEv.snap]
      2 1 5 [(5, "val")] "val" (by decide) (by decide) (by decide)).2
      (by decide)

/-- C3: the claim fails on the code.  `snapshot()` and
`start_transaction()` (src lines 192-205) never increment
`num_lsn_acquired` — only the two `Drop` impls decrement it — so on the
trace snapshot(1), batch(2) set one key, drop batch with freeze threshold
1, `may_freeze` reads `num_lsn_acquired == 0` and rotates the memtable
even though snapshot 1 is still outstanding; the claim requires freezing
to be deferred whenever any other snapshot is outstanding.  The
subsequent `fetch_sub` then wraps the counter to `2^64 - 1`. -/
theorem C3_freeze_ignores_live_snapshot :
    (runTxn 1 [TxnEv.snap, TxnEv.beginTxn, TxnEv.txnSet 2 0 "v",
      TxnEv.dropTxn 2]).snaps = [1] ∧
    (runTxn 1 [TxnEv.snap, TxnEv.beginTxn, TxnEv.txnSet 2 0 "v",
      TxnEv.dropTxn 2]).frozeLog = [2] ∧
    (runTxn 1 [TxnEv.snap, TxnEv.beginTxn, TxnEv.txnSet 2 0 "v",
      TxnEv.dropTxn 2]).numLsnAcquired = U64_MOD - 1 := by
  refine ⟨?_, ?_, ?_⟩ <;> decide

/-- Operations on a write-batch's private buffer (src lines 84-94): both
`set` and `remove` insert under the key `LSNKey(k, self.lsn)`; `remove`
stores `Value::default()`, the empty value.  Since every buffer key
carries the batch's own LSN, the buffer is keyed by user key. -/
inductive BatchOp where
  | set (k : Nat) (v : Value)
  | remove (k : Nat)
deriving DecidableEq

def BatchOp.bkey : BatchOp → Nat
  | BatchOp.set k _ => k
  | BatchOp.remove k => k

def applyBatchOp (buf : List (Nat × Value)) : BatchOp → List (Nat × Value)
  | BatchOp.set k v => SkipMap.insert buf k v
  | BatchOp.remove k => SkipMap.insert buf k emptyValue

def applyBatchOps (ops : List BatchOp) (buf : List (Nat × Value)) : List (Nat × Value) :=
  ops.foldl applyBatchOp buf

/-- `WriteBatch::get` (src lines 76-82): consult the private buffer first
with `get_clone` on `LSNKey(k, self.lsn)` and return the buffered value
verbatim when present; only on a buffer miss fall through to the engine
read at the batch's LSN. -/
def wbGet (buf : List (Nat × Value)) (mem : List MEntry) (lsn k : Nat) : Option Value :=
  match SkipMap.get? buf k with
  | some v => some v
  | none => (mvccGet mem k lsn).map (fun a => a.2)

theorem sorted_applyBatchOp {buf : List (Nat × Value)} (h : SkipMap.Sorted buf)
    (op : BatchOp) : SkipMap.Sorted (applyBatchOp buf op) := by
  cases op <;> exact SkipMap.sorted_insert h _ _

theorem get_applyBatchOps_untouched (ops : List BatchOp) (buf : List (Nat × Value))
    (k : Nat) (hbuf : SkipMap.Sorted buf) (hops : ∀ op ∈ ops, op.bkey ≠ k) :
    SkipMap.get? (applyBatchOps ops buf) k = SkipMap.get? buf k := by
  induction ops generalizing buf with
  | nil => rfl
  | cons op rest ih =>
    have hstep : applyBatchOps (op :: rest) buf = applyBatchOps rest (applyBatchOp buf op) :=
      rfl
    rw [hstep, ih (applyBatchOp buf op) (sorted_applyBatchOp hbuf op)
      (fun o ho => hops o (List.mem_cons.mpr (Or.inr ho)))]
    have hne : k ≠ op.bkey := Ne.symm (hops op (List.mem_cons_self op rest))
    cases op with
    | set k2 v => exact SkipMap.get_insert_ne hbuf v hne
    | remove k2 => exact SkipMap.get_insert_ne hbuf emptyValue hne

/-- C10: after `remove(k)` on a write-batch, with no later mutation of
`k` in the same batch, the batch's own `get(k)` returns `some` of the
empty value — the tombstone is stored in the private buffer as the empty
value and `get` returns the buffered value verbatim, never interpreting
it as a deletion and never falling through to the engine, whatever the
engine's memtable holds. -/
theorem C10_batch_get_tombstone (ops : List BatchOp) (buf : List (Nat × Value))
    (mem : List MEntry) (lsn k : Nat) (hbuf : SkipMap.Sorted buf)
    (hops : ∀ op ∈ ops, op.bkey ≠ k) :
    wbGet (applyBatchOps ops (applyBatchOp buf (BatchOp.remove k))) mem lsn k
      = some emptyValue := by
  rw [wbGet]
  have h1 : SkipMap.get? (applyBatchOps ops (applyBatchOp buf (BatchOp.remove k))) k
      = some emptyValue := by
    rw [get_applyBatchOps_untouched ops _ k
      (sorted_applyBatchOp hbuf (BatchOp.remove k)) hops]
    exact SkipMap.get_insert_self buf k emptyValue
  rw [h1]

/-- C10 witness: remove key 1 in a batch, then set key 2; the batch's
`get 1` returns `some ""` although the engine's memtable maps key 1 to
`"old"` at a visible sequence number. -/
theorem C10_batch_get_tombstone_witness :
    wbGet (applyBatchOps [BatchOp.set 2 "x"] (applyBatchOp [] (BatchOp.remove 1)))
      [(1, (5, "old"))] 7 1 = some emptyValue := by
  exact C10_batch_get_tombstone [BatchOp.set 2 "x"] [] [(1, (5, "old"))] 7 1
    SkipMap.sorted_nil (by decide)
